import Mathlib

/-!
# Quagga: BGP notification buffers and the command execution states

A shallow embedding of `bgpd/bgp_notification.c` and of the state enumeration of
`lib/command_execute.h`.

A notification is a heap block: a fixed header (`code`, `subcode`, `length`,
`size`) followed by the flexible array `data[]`.  Memory is modelled as an
explicit state (`Mem`): the live blocks, the pointer variables ("slots") that
the set/unset functions work on, and a log of the blocks handed to `XFREE`.
Every function returns `none` when the C code would access memory outside an
allocated block or free a block that is not live.
-/

namespace Quagga

/-- One octet of memory. -/
abbrev Byte := Fin 256

/-- The two facts about `bgpd/bgp_notification.h` and `bgpd/bgp_common.h` that the
code depends on and that are not part of the sources: `hdr` is
`sizeof(struct bgp_notify)` (the flexible array `data[]` starts at that offset),
and `bits` is the width of the unsigned integer type `bgp_size_t`.  `bgp_size_t`
is taken to be narrower than `int`, so that the arithmetic of an expression is
done without wrapping and only the conversion of its value back to `bgp_size_t`
reduces it modulo `2 ^ bits`. -/
structure Layout where
  hdr : Nat
  bits : Nat
deriving DecidableEq

/-- The contents of one allocated `struct bgp_notify` block: the header fields and
the bytes of the flexible array `data[]`, that is all the bytes of the block after
the header.  The block is `hdr + data.length` bytes long. -/
structure bgp_notify where
  code : Nat
  subcode : Nat
  length : Nat
  size : Nat
  data : List Byte
deriving DecidableEq

/-- Addresses of heap blocks. -/
abbrev Addr := Nat

/-- The memory the notification functions work on.
* `heap a` is the live block at address `a`, if any;
* `slot s` is the value of the pointer variable `s` (a `bgp_notify*` points at such
  a variable), `none` being `NULL`;
* `next` is the address the allocator hands out next;
* `freed` logs the blocks released by `XFREE`, oldest first;
* `inplace a` is the allocator's choice in `XREALLOC`: whether the block at `a`
  is resized where it is or moved;
* `junk` is what a byte of memory contains that was allocated and not yet written. -/
structure Mem where
  heap : Addr → Option bgp_notify
  slot : Nat → Option Addr
  next : Addr
  freed : List Addr
  inplace : Addr → Bool
  junk : Byte

/-- Overwrite the block at address `a`. -/
def Mem.store (m : Mem) (a : Addr) (n : bgp_notify) : Mem :=
  { m with heap := Function.update m.heap a (some n) }

/-- Allocation of a block with the given contents (`XMALLOC`, `XCALLOC`): the
block is placed at the next free address.  Memory never runs out. -/
def Mem.alloc (m : Mem) (n : bgp_notify) : Addr × Mem :=
  (m.next, { m with heap := Function.update m.heap m.next (some n), next := m.next + 1 })

/-- The macro `XFREE(mtype, ptr)` of `lib/memory.h`, as far as the heap goes:
releases the block.  (The macro also sets `ptr` to `NULL`; the caller models that
where `ptr` is not a local variable.)  Releasing what is not a live block is an
error. -/
def XFREE (m : Mem) (a : Addr) : Option Mem :=
  if (m.heap a).isSome then
    some { m with heap := Function.update m.heap a none, freed := m.freed ++ [a] }
  else none

/-- The macro `XREALLOC(mtype, ptr, size)`: the block keeps its first bytes, the
bytes gained are not initialised, and the block may move.  A block cut below its
header has its fields outside it, so the accesses that follow in the caller would
be out of bounds: that is reported here. -/
def XREALLOC (L : Layout) (m : Mem) (a : Addr) (size : Nat) : Option (Addr × Mem) :=
  match m.heap a with
  | none => none
  | some n =>
    if size < L.hdr then none
    else
      let n1 : bgp_notify :=
        { n with data := n.data.take (size - L.hdr) ++
                         List.replicate (size - L.hdr - n.data.length) m.junk }
      if m.inplace a then some (a, m.store a n1)
      else some (m.next, { m with heap := Function.update (Function.update m.heap a none)
                                            m.next (some n1),
                                  next := m.next + 1 })

/-- The call `memset(base + off, v, cnt)` on the bytes of `data[]`. -/
def memset (data : List Byte) (off cnt : Nat) (v : Byte) : Option (List Byte) :=
  if off + cnt ≤ data.length then
    some (data.take off ++ List.replicate cnt v ++ data.drop (off + cnt))
  else none

/-- The call `memcpy(dst + off, src, cnt)` on the bytes of `data[]`; `src` lists
the bytes readable at the source pointer. -/
def memcpy (dst : List Byte) (off : Nat) (src : List Byte) (cnt : Nat) :
    Option (List Byte) :=
  if off + cnt ≤ dst.length ∧ cnt ≤ src.length then
    some (dst.take off ++ src.take cnt ++ dst.drop (off + cnt))
  else none

/-- Calculate size for bgp_notify of given length: rounds up to multiple of 32,
such that is always at least 16 bytes available.  The sum is a `size_t`; the
function returns it as a `bgp_size_t`. -/
def bgp_notify_size (L : Layout) (length : Nat) : Nat :=
  (L.hdr + ((length + 32 + 16 - 1) / 32) * 32) % 2 ^ L.bits

/-- Allocate and initialise new notification (`XCALLOC` gives a zeroed block of
`size` bytes; the header fields are then written into it). -/
def bgp_notify_new (L : Layout) (m : Mem) (code subcode expect : Nat) :
    Option (Addr × Mem) :=
  let size := bgp_notify_size L expect
  if size < L.hdr then none
  else
    some (m.alloc { code := code, subcode := subcode, size := size, length := 0,
                    data := List.replicate (size - L.hdr) 0 })

/-- Free notification structure; does nothing if there is no structure. -/
def bgp_notify_free (m : Mem) (notification : Option Addr) : Option Mem :=
  match notification with
  | none => some m
  | some a => XFREE m a

/-- Duplicate existing notification (if any): `memcpy` of `size` bytes, header
included, out of the source block into a new block of `size` bytes.  The copy
reads `size` bytes of the source block, which has `hdr + data.length` of them, and
`duplicate->size` is written inside the new block only if that holds the header. -/
def bgp_notify_dup (L : Layout) (m : Mem) (notification : Option Addr) :
    Option (Option Addr × Mem) :=
  match notification with
  | none => some (none, m)
  | some a =>
    match m.heap a with
    | none => none
    | some n =>
      let size := bgp_notify_size L n.length
      if L.hdr ≤ size ∧ size ≤ L.hdr + n.data.length then
        let r := m.alloc { n with size := size, data := n.data.take (size - L.hdr) }
        some (some r.1, r.2)
      else none

/-- Unset pointer to notification and free any existing notification structure. -/
def bgp_notify_unset (m : Mem) (p_notification : Nat) : Option Mem :=
  match m.slot p_notification with
  | none => some m
  | some a =>
    match XFREE m a with
    | none => none
    | some m1 => some { m1 with slot := Function.update m1.slot p_notification none }

/-- Set pointer to notification; frees any existing notification at the
destination. -/
def bgp_notify_set (m : Mem) (p_dst : Nat) (src : Option Addr) : Option Mem :=
  match bgp_notify_free m (m.slot p_dst) with
  | none => none
  | some m1 => some { m1 with slot := Function.update m1.slot p_dst src }

/-- Set pointer to notification to a *copy* of the source. -/
def bgp_notify_set_dup (L : Layout) (m : Mem) (p_dst : Nat) (src : Option Addr) :
    Option Mem :=
  match bgp_notify_dup L m src with
  | none => none
  | some (d, m1) => bgp_notify_set m1 p_dst d

/-- Set pointer to notification and unset source pointer. -/
def bgp_notify_set_mov (m : Mem) (p_dst p_src : Nat) : Option Mem :=
  match bgp_notify_free m (m.slot p_dst) with
  | none => none
  | some m1 =>
    let m2 : Mem := { m1 with slot := Function.update m1.slot p_dst (m1.slot p_src) }
    some { m2 with slot := Function.update m2.slot p_src none }

/-- Append data to given notification; returns the possibly new address of the
notification.  `data` lists the bytes readable at the source pointer and `len`
is the `bgp_size_t` count.  In the branch that grows the block, `memset` starts at
offset `notification->size` of the block, which is taken to lie in `data[]`, and
its count `size - notification->size` is huge when negative. -/
def bgp_notify_append_data (L : Layout) (m : Mem) (notification : Addr)
    (data : List Byte) (len : Nat) : Option (Addr × Mem) :=
  match m.heap notification with
  | none => none
  | some n =>
    let new_length := (n.length + len) % 2 ^ L.bits
    let grown : Option (Addr × Mem) :=
      if L.hdr + new_length > n.size then
        let size := bgp_notify_size L new_length
        match XREALLOC L m notification size with
        | none => none
        | some (p, m1) =>
          match m1.heap p with
          | none => none
          | some n1 =>
            if n1.size < L.hdr ∨ size < n1.size then none
            else
              match memset n1.data (n1.size - L.hdr) (size - n1.size) 0 with
              | none => none
              | some d => some (p, m1.store p { n1 with data := d, size := size })
      else some (notification, m)
    match grown with
    | none => none
    | some (p, m2) =>
      match m2.heap p with
      | none => none
      | some n2 =>
        let copied : Option (List Byte) :=
          if len > 0 then memcpy n2.data n2.length data len else some n2.data
        match copied with
        | none => none
        | some d => some (p, m2.store p { n2 with data := d, length := new_length })

/-- The empty memory, with an allocator that moves a block whenever it is resized;
used to evaluate the functions on concrete inputs. -/
def Mem.empty : Mem :=
  { heap := fun _ => none, slot := fun _ => none, next := 0, freed := [],
    inplace := fun _ => false, junk := 170 }

/-- A block is well formed when its `size` field is the number of bytes of the
block and is a value of `bgp_size_t`. -/
def bgp_notify.wf (L : Layout) (n : bgp_notify) : Prop :=
  n.size = L.hdr + n.data.length ∧ n.size < 2 ^ L.bits

instance (L : Layout) (n : bgp_notify) : Decidable (n.wf L) := by
  unfold bgp_notify.wf
  infer_instance

/-- The allocator hands out addresses that hold no live block. -/
def Mem.ok (m : Mem) : Prop := ∀ a, m.next ≤ a → m.heap a = none

/-- A 16-bit `bgp_size_t` and an 8-byte header: the layout the functions are
evaluated with on concrete inputs. -/
def L16 : Layout := ⟨8, 16⟩

/-- The bytes appended in the concrete evaluations. -/
def bytes20 : List Byte := List.replicate 20 7

/-- The block `bgp_notify_new(6, 2, 0)` makes under `L16`: 8 + 32 bytes. -/
def blk0 : bgp_notify := ⟨6, 2, 0, 40, List.replicate 32 0⟩

/-- The memory after `bgp_notify_new(6, 2, 0)` in the empty memory. -/
def mem1 : Mem := (Mem.empty.alloc blk0).2

/-- The block after 20 bytes have been appended to `blk0`. -/
def blk20 : bgp_notify := ⟨6, 2, 20, 40, bytes20 ++ List.replicate 12 0⟩

/-- The memory after 20 bytes have been appended to the notification of `mem1`. -/
def mem2 : Mem := mem1.store 0 blk20

/-- The memory `mem1` with the pointer variable 0 holding its notification. -/
def mem1s : Mem := { mem1 with slot := Function.update mem1.slot 0 (some 0) }

/-- The memory `mem1` with the pointer variables 0 and 2 both holding its
notification, and the pointer variable 1 holding `NULL`. -/
def mem3 : Mem :=
  { mem1 with slot := Function.update (Function.update mem1.slot 0 (some 0)) 2 (some 0) }

/-- A memory with two notifications: `blk0` at address 0, held by the pointer
variable 0, and `blk20` at address 1, held by the pointer variable 1. -/
def mem_two : Mem :=
  { heap := Function.update (Function.update (fun _ => none) 0 (some blk0)) 1 (some blk20),
    slot := Function.update (Function.update (fun _ => none) 0 (some 0)) 1 (some 1),
    next := 2, freed := [], inplace := fun _ => false, junk := 170 }

/-- State of the execution loop (`enum cmd_exec_state`). -/
inductive cmd_exec_state where
  | exec_null
  | exec_special
  | exec_fetch
  | exec_parse
  | exec_open_pipes
  | exec_execute
  | exec_success
  | exec_complete
deriving DecidableEq

/-- The value of each enumerator: `exec_null = 0`, the others count up from it. -/
def cmd_exec_state.toNat : cmd_exec_state → Nat
  | .exec_null => 0
  | .exec_special => 1
  | .exec_fetch => 2
  | .exec_parse => 3
  | .exec_open_pipes => 4
  | .exec_execute => 5
  | .exec_success => 6
  | .exec_complete => 7

/-- Modelled from the spec: what a step of the driver meets in its current state
(the driver itself is not part of the sources, which only declare the states
and the collaborators `cmd_open_pipes`, `cmd_execute`).
* `ok`: the step succeeded;
* `error`: the collaborator reports an error (parse error, pipe open error,
  execution error);
* `wait`: would-block or a suspend request, the driver parks and resumes in the
  same state (also: an exhausted frame was popped and the fetch is retried);
* `special`: (in `null`) the input is not an ordinary command;
* `nested`: (in `open_pipes`) a nested source was pushed, whose content is
  fetched next;
* `finish`: (in `fetch`) end of input with an empty pipe stack, (in `special`) the
  short-circuit to completion. -/
inductive cmd_outcome where
  | ok
  | error
  | wait
  | special
  | nested
  | finish
deriving DecidableEq

/-- Modelled from the spec: the transition function of the command execution state
machine of section 4.1, which the missing driver implements.  `none` where the
spec gives the state no transition for the outcome.
`null → {special | fetch} → parse → open_pipes → execute → success → complete`,
with a direct edge from `parse`, `open_pipes` or `execute` to `complete` on error;
`special` either short-circuits to `complete` or goes on to `parse` (the spec
leaves it open, both are allowed here); a successful `open_pipes` that pushed a
nested source loops back to `fetch`; `complete` is terminal. -/
def cq_step : cmd_exec_state → cmd_outcome → Option cmd_exec_state
  | .exec_null, .ok => some .exec_fetch
  | .exec_null, .special => some .exec_special
  | .exec_special, .ok => some .exec_parse
  | .exec_special, .finish => some .exec_complete
  | .exec_fetch, .ok => some .exec_parse
  | .exec_fetch, .wait => some .exec_fetch
  | .exec_fetch, .finish => some .exec_complete
  | .exec_parse, .ok => some .exec_open_pipes
  | .exec_parse, .error => some .exec_complete
  | .exec_open_pipes, .ok => some .exec_execute
  | .exec_open_pipes, .nested => some .exec_fetch
  | .exec_open_pipes, .wait => some .exec_open_pipes
  | .exec_open_pipes, .error => some .exec_complete
  | .exec_execute, .ok => some .exec_success
  | .exec_execute, .wait => some .exec_execute
  | .exec_execute, .error => some .exec_complete
  | .exec_success, .ok => some .exec_complete
  | _, _ => none

/-- Modelled from the spec: a run of the state machine from state `s` through the
given outcomes; the result lists the states visited, `s` first. -/
def cq_run : cmd_exec_state → List cmd_outcome → Option (List cmd_exec_state)
  | s, [] => some [s]
  | s, o :: os =>
    match cq_step s o with
    | none => none
    | some s1 =>
      match cq_run s1 os with
      | none => none
      | some t => some (s :: t)

/-- The states from which the line has been handed to the executor. -/
def cmd_exec_state.late (s : cmd_exec_state) : Bool :=
  5 ≤ s.toNat

/-- The notifications obtained from `bgp_notify_new` by a sequence of
`bgp_notify_append_data` calls (in any memory, whatever else happens to the memory
between the calls). -/
inductive Built (L : Layout) : bgp_notify → Prop
  | new (m : Mem) (code subcode expect : Nat) (a : Addr) (m1 : Mem) (n : bgp_notify)
      (h : bgp_notify_new L m code subcode expect = some (a, m1))
      (hn : m1.heap a = some n) : Built L n
  | append (m : Mem) (p : Addr) (n : bgp_notify) (d : List Byte) (len : Nat)
      (p1 : Addr) (m1 : Mem) (n1 : bgp_notify)
      (hb : Built L n) (hp : m.heap p = some n)
      (h : bgp_notify_append_data L m p d len = some (p1, m1))
      (hn : m1.heap p1 = some n1) : Built L n1

/-- A block of 65535 bytes that holds 65520 bytes of payload, under `L16`. -/
def blk_big : bgp_notify := ⟨6, 2, 65520, 65535, List.replicate 65527 0⟩

/-- A memory that holds `blk_big` at address 0. -/
def mem_big : Mem := (Mem.empty.alloc blk_big).2

/-- The 65488 bytes appended first in the evaluation of two appends. -/
def big_a : List Byte := List.replicate 65488 7

/-- The 10 bytes appended next. -/
def ten_b : List Byte := List.replicate 10 9

/-- Modelled from the spec: the table of transition edges of the command execution
state machine (the sources declare the states only, not the transitions), as
section 4.1 lists them: `null` to `special` or `fetch`; `special` or `fetch` to
`parse`; `parse` to `open_pipes`; `open_pipes` to `execute`; `execute` to `success`;
`success` to `complete`; and `parse`, `open_pipes` or `execute` directly to
`complete`. -/
def spec_edge : cmd_exec_state → cmd_exec_state → Bool
  | .exec_null, .exec_special => true
  | .exec_null, .exec_fetch => true
  | .exec_special, .exec_parse => true
  | .exec_fetch, .exec_parse => true
  | .exec_parse, .exec_open_pipes => true
  | .exec_open_pipes, .exec_execute => true
  | .exec_execute, .exec_success => true
  | .exec_success, .exec_complete => true
  | .exec_parse, .exec_complete => true
  | .exec_open_pipes, .exec_complete => true
  | .exec_execute, .exec_complete => true
  | _, _ => false

/-- A path of the state machine along the listed edges: each state is followed by
one that an edge leads to. -/
def spec_path : List cmd_exec_state → Bool
  | [] => true
  | [_] => true
  | s :: t :: rest => spec_edge s t && spec_path (t :: rest)

/-! ## Theorems -/

/-! ### Arithmetic of `bgp_notify_size` -/

theorem pow_bits_dvd (bits : Nat) (hb : 5 ≤ bits) : 32 ∣ 2 ^ bits := by
  obtain ⟨c, rfl⟩ := Nat.exists_eq_add_of_le hb
  exact ⟨2 ^ c, by rw [pow_add]; norm_num⟩

theorem hdr_le_bgp_notify_size (L : Layout) (length : Nat) (hh : L.hdr < 32)
    (hb : 5 ≤ L.bits) : L.hdr ≤ bgp_notify_size L length := by
  unfold bgp_notify_size
  have h1 := Nat.mod_mod_of_dvd (L.hdr + ((length + 32 + 16 - 1) / 32) * 32)
    (pow_bits_dvd L.bits hb)
  have h2 : (L.hdr + ((length + 32 + 16 - 1) / 32) * 32) % 32 = L.hdr := by omega
  have h3 := Nat.mod_le ((L.hdr + ((length + 32 + 16 - 1) / 32) * 32) % 2 ^ L.bits) 32
  omega

theorem bgp_notify_size_lt (L : Layout) (length : Nat) :
    bgp_notify_size L length < 2 ^ L.bits :=
  Nat.mod_lt _ (by positivity)

theorem bgp_notify_size_of_fit (L : Layout) (length : Nat)
    (hfit : L.hdr + ((length + 32 + 16 - 1) / 32) * 32 < 2 ^ L.bits) :
    bgp_notify_size L length = L.hdr + ((length + 32 + 16 - 1) / 32) * 32 := by
  unfold bgp_notify_size
  exact Nat.mod_eq_of_lt hfit

/-- C1: for every length for which the sum computed by `bgp_notify_size` fits in
`bgp_size_t`, the payload capacity `bgp_notify_size(length) - sizeof(struct bgp_notify)`
is a multiple of 32, at least `length + 16` and at most `length + 47`. -/
theorem bgp_notify_size_capacity (L : Layout) (length : Nat)
    (hfit : L.hdr + ((length + 32 + 16 - 1) / 32) * 32 < 2 ^ L.bits) :
    (bgp_notify_size L length - L.hdr) % 32 = 0 ∧
    length + 16 ≤ bgp_notify_size L length - L.hdr ∧
    bgp_notify_size L length - L.hdr ≤ length + 47 := by
  unfold bgp_notify_size
  rw [Nat.mod_eq_of_lt hfit]
  omega

/-- Witness for C1: with a 16-bit `bgp_size_t` and an 8-byte header, length 20 gets a
capacity of 64 bytes. -/
theorem bgp_notify_size_capacity_witness :
    (L16.hdr + ((20 + 32 + 16 - 1) / 32) * 32 < 2 ^ L16.bits) ∧
    ((bgp_notify_size L16 20 - L16.hdr) % 32 = 0 ∧
      20 + 16 ≤ bgp_notify_size L16 20 - L16.hdr ∧
      bgp_notify_size L16 20 - L16.hdr ≤ 20 + 47) :=
  ⟨by decide, bgp_notify_size_capacity L16 20 (by decide)⟩

/-! ### Creation -/

/-- C2: for every code, subcode and expected size, `bgp_notify_new` returns a
notification (a live block) whose code and subcode are the given ones, whose
length is 0, whose size is `bgp_notify_size(expect)`, which is the number of bytes
of the block, and whose payload bytes are all zero.  The layout is that of a
header shorter than 32 bytes and a `bgp_size_t` of at least 5 bits. -/
theorem bgp_notify_new_spec (L : Layout) (m : Mem) (code subcode expect : Nat)
    (hh : L.hdr < 32) (hb : 5 ≤ L.bits) :
    ∃ a m1 n, bgp_notify_new L m code subcode expect = some (a, m1) ∧
      m1.heap a = some n ∧
      n.code = code ∧ n.subcode = subcode ∧ n.length = 0 ∧
      n.size = bgp_notify_size L expect ∧
      L.hdr + n.data.length = n.size ∧ (∀ b ∈ n.data, b = 0) := by
  have h := hdr_le_bgp_notify_size L expect hh hb
  refine ⟨m.next, (m.alloc ⟨code, subcode, 0, bgp_notify_size L expect,
    List.replicate (bgp_notify_size L expect - L.hdr) 0⟩).2,
    ⟨code, subcode, 0, bgp_notify_size L expect,
    List.replicate (bgp_notify_size L expect - L.hdr) 0⟩, ?_, ?_, rfl, rfl, rfl, rfl, ?_, ?_⟩
  · unfold bgp_notify_new
    simp only [not_lt.mpr h, if_false]
    rfl
  · simp [Mem.alloc]
  · simp only [List.length_replicate]; omega
  · intro b hb
    exact List.eq_of_mem_replicate hb

/-- Witness for C2: `bgp_notify_new(6, 2, 100)` in the empty memory. -/
theorem bgp_notify_new_spec_witness :
    L16.hdr < 32 ∧ 5 ≤ L16.bits ∧
    ∃ a m1 n, bgp_notify_new L16 Mem.empty 6 2 100 = some (a, m1) ∧
      m1.heap a = some n ∧
      n.code = 6 ∧ n.subcode = 2 ∧ n.length = 0 ∧
      n.size = bgp_notify_size L16 100 ∧
      L16.hdr + n.data.length = n.size ∧ (∀ b ∈ n.data, b = 0) :=
  ⟨by decide, by decide, bgp_notify_new_spec L16 Mem.empty 6 2 100 (by decide) (by decide)⟩

/-! ### Appending -/

theorem memcpy_ok (dst : List Byte) (off : Nat) (src : List Byte) (cnt : Nat)
    (h1 : off + cnt ≤ dst.length) (h2 : cnt ≤ src.length) :
    memcpy dst off src cnt = some (dst.take off ++ src.take cnt ++ dst.drop (off + cnt)) := by
  unfold memcpy
  rw [if_pos ⟨h1, h2⟩]

theorem memcpy_fault (dst : List Byte) (off : Nat) (src : List Byte) (cnt : Nat)
    (h : dst.length < off + cnt) : memcpy dst off src cnt = none := by
  unfold memcpy
  rw [if_neg (by omega)]

theorem memset_ok (data : List Byte) (off cnt : Nat) (v : Byte)
    (h1 : off + cnt ≤ data.length) :
    memset data off cnt v =
      some (data.take off ++ List.replicate cnt v ++ data.drop (off + cnt)) := by
  unfold memset
  rw [if_pos h1]

theorem copy_step (dst : List Byte) (off : Nat) (src : List Byte) (len : Nat)
    (h1 : off + len ≤ dst.length) (h2 : len ≤ src.length) :
    (if 0 < len then memcpy dst off src len else some dst) =
      some (dst.take off ++ src.take len ++ dst.drop (off + len)) := by
  by_cases hl : 0 < len
  · rw [if_pos hl, memcpy_ok _ _ _ _ h1 h2]
  · have h0 : len = 0 := by omega
    subst h0
    simp

theorem memset_tail (data : List Byte) (cnt : Nat) (j v : Byte) :
    memset (data ++ List.replicate cnt j) data.length cnt v =
      some (data ++ List.replicate cnt v) := by
  rw [memset_ok _ _ _ _ (by simp)]
  simp

theorem append_data_nogrow (L : Layout) (m : Mem) (p : Addr) (n : bgp_notify)
    (d : List Byte) (len : Nat)
    (hp : m.heap p = some n) (hwf : n.wf L)
    (hd : len ≤ d.length) (hg : L.hdr + (n.length + len) ≤ n.size) :
    bgp_notify_append_data L m p d len =
      some (p, m.store p { n with length := n.length + len,
                                  data := n.data.take n.length ++ d.take len ++
                                          n.data.drop (n.length + len) }) := by
  obtain ⟨hsz, hlt⟩ := hwf
  have hmod : (n.length + len) % 2 ^ L.bits = n.length + len :=
    Nat.mod_eq_of_lt (by omega)
  unfold bgp_notify_append_data
  simp only [hp, hmod, gt_iff_lt, not_lt.mpr hg, if_false]
  by_cases hl : len > 0
  · simp only [hl, if_true]
    rw [memcpy_ok _ _ _ _ (by omega) hd]
  · have h0 : len = 0 := by omega
    subst h0
    simp

theorem append_data_grow (L : Layout) (m : Mem) (p : Addr) (n : bgp_notify)
    (d : List Byte) (len : Nat)
    (hp : m.heap p = some n) (hwf : n.wf L)
    (hd : len ≤ d.length) (hg : n.size < L.hdr + (n.length + len))
    (hS1 : n.size ≤ bgp_notify_size L (n.length + len))
    (hS2 : L.hdr + (n.length + len) ≤ bgp_notify_size L (n.length + len)) :
    ∃ p1 m1, bgp_notify_append_data L m p d len = some (p1, m1) ∧
      m1.heap p1 = some
        { n with length := n.length + len,
                 size := bgp_notify_size L (n.length + len),
                 data := (n.data ++ List.replicate
                            (bgp_notify_size L (n.length + len) - n.size) 0).take n.length ++
                         d.take len ++
                         (n.data ++ List.replicate
                            (bgp_notify_size L (n.length + len) - n.size) 0).drop
                              (n.length + len) } ∧
      m1.slot = m.slot ∧ m1.freed = m.freed ∧ (p1 = p ∨ p1 = m.next) ∧
      (∀ a, a ≠ p → a ≠ p1 → m1.heap a = m.heap a) ∧ m.next ≤ m1.next := by
  obtain ⟨hsz, hlt⟩ := hwf
  have hS := bgp_notify_size_lt L (n.length + len)
  have hmod : (n.length + len) % 2 ^ L.bits = n.length + len :=
    Nat.mod_eq_of_lt (by omega)
  unfold bgp_notify_append_data XREALLOC
  simp only [hp, hmod, gt_iff_lt, hg, if_true]
  have hge : ¬ bgp_notify_size L (n.length + len) < L.hdr := by omega
  simp only [hge, if_false]
  have htake : List.take (bgp_notify_size L (n.length + len) - L.hdr) n.data = n.data :=
    List.take_of_length_le (by omega)
  have hcnt : bgp_notify_size L (n.length + len) - L.hdr - n.data.length =
      bgp_notify_size L (n.length + len) - n.size := by omega
  rw [htake, hcnt]
  have hnot : ¬ (n.size < L.hdr ∨ bgp_notify_size L (n.length + len) < n.size) := by omega
  have hoff : n.size - L.hdr = n.data.length := by omega
  have hcopy := copy_step
    (n.data ++ List.replicate (bgp_notify_size L (n.length + len) - n.size) 0) n.length d len
    (by simp only [List.length_append, List.length_replicate]; omega) hd
  by_cases hin : m.inplace p = true
  · simp only [hin, if_true, Mem.store, Function.update_same, hnot, if_false, hoff,
      memset_tail, hcopy]
    refine ⟨p, _, rfl, ?_, rfl, rfl, Or.inl rfl, ?_, le_refl _⟩
    · simp
    · intro a ha _
      simp [Function.update_noteq ha]
  · have hin1 : m.inplace p = false := by simpa using hin
    simp only [hin1, Bool.false_eq_true, if_false, Mem.store, Function.update_same, hnot,
      hoff, memset_tail, hcopy]
    refine ⟨m.next, _, rfl, ?_, rfl, rfl, Or.inr rfl, ?_, Nat.le_succ _⟩
    · simp
    · intro a ha ha1
      simp [Function.update_noteq ha, Function.update_noteq ha1]

theorem grow_of_fit (L : Layout) (n : bgp_notify) (len : Nat)
    (hfit : L.hdr + (n.length + len) ≤ n.size ∨
            L.hdr + ((n.length + len + 32 + 16 - 1) / 32) * 32 < 2 ^ L.bits) :
    L.hdr + (n.length + len) ≤ n.size ∨
      (n.size ≤ bgp_notify_size L (n.length + len) ∧
       L.hdr + (n.length + len) ≤ bgp_notify_size L (n.length + len)) := by
  by_cases hg : L.hdr + (n.length + len) ≤ n.size
  · exact Or.inl hg
  · rcases hfit with h | h
    · exact absurd h hg
    · have hS := bgp_notify_size_of_fit L (n.length + len) h
      exact Or.inr ⟨by omega, by omega⟩

theorem append_data_ok (L : Layout) (m : Mem) (p : Addr) (n : bgp_notify)
    (d : List Byte) (len : Nat)
    (hp : m.heap p = some n) (hwf : n.wf L) (hd : len ≤ d.length)
    (hfit : L.hdr + (n.length + len) ≤ n.size ∨
            (n.size ≤ bgp_notify_size L (n.length + len) ∧
             L.hdr + (n.length + len) ≤ bgp_notify_size L (n.length + len))) :
    ∃ p1 m1 S, bgp_notify_append_data L m p d len = some (p1, m1) ∧
      S = (if L.hdr + (n.length + len) ≤ n.size then n.size
           else bgp_notify_size L (n.length + len)) ∧
      m1.heap p1 = some
        { n with length := n.length + len,
                 size := S,
                 data := (n.data ++ List.replicate (S - n.size) 0).take n.length ++
                         d.take len ++
                         (n.data ++ List.replicate (S - n.size) 0).drop (n.length + len) } ∧
      m1.slot = m.slot ∧ m1.freed = m.freed ∧ (p1 = p ∨ p1 = m.next) ∧
      (∀ a, a ≠ p → a ≠ p1 → m1.heap a = m.heap a) ∧ m.next ≤ m1.next := by
  by_cases hg : L.hdr + (n.length + len) ≤ n.size
  · refine ⟨p, _, n.size, append_data_nogrow L m p n d len hp hwf hd hg, by rw [if_pos hg],
      ?_, rfl, rfl, Or.inl rfl, ?_, le_refl _⟩
    · simp [Mem.store]
    · intro a ha _
      simp [Mem.store, Function.update_noteq ha]
  · have hfit1 : n.size ≤ bgp_notify_size L (n.length + len) ∧
        L.hdr + (n.length + len) ≤ bgp_notify_size L (n.length + len) := by
      rcases hfit with h | h
      · exact absurd h hg
      · exact h
    obtain ⟨p1, m1, h1, h2, h3⟩ :=
      append_data_grow L m p n d len hp hwf hd (by omega) hfit1.1 hfit1.2
    exact ⟨p1, m1, bgp_notify_size L (n.length + len), h1, by rw [if_neg hg], h2, h3⟩

theorem append_data_fault (L : Layout) (m : Mem) (p : Addr) (n : bgp_notify)
    (d : List Byte) (len : Nat)
    (hp : m.heap p = some n) (hwf : n.wf L) (hcap : L.hdr + n.length ≤ n.size)
    (hlen : n.length + len < 2 ^ L.bits)
    (hg : n.size < L.hdr + (n.length + len))
    (hS : bgp_notify_size L (n.length + len) < L.hdr + (n.length + len)) :
    bgp_notify_append_data L m p d len = none := by
  obtain ⟨hsz, hlt⟩ := hwf
  have hmod : (n.length + len) % 2 ^ L.bits = n.length + len := Nat.mod_eq_of_lt hlen
  have hpos : 0 < len := by omega
  unfold bgp_notify_append_data XREALLOC
  simp only [hp, hmod, gt_iff_lt, hg, if_true, hpos]
  by_cases h1 : bgp_notify_size L (n.length + len) < L.hdr
  · simp only [h1, if_true]
  · simp only [h1, if_false]
    by_cases h2 : bgp_notify_size L (n.length + len) < n.size
    · cases hin : m.inplace p <;>
        simp [Mem.store, h2]
    · have htake : List.take (bgp_notify_size L (n.length + len) - L.hdr) n.data = n.data :=
        List.take_of_length_le (by omega)
      have hcnt : bgp_notify_size L (n.length + len) - L.hdr - n.data.length =
          bgp_notify_size L (n.length + len) - n.size := by omega
      have hnot : ¬ (n.size < L.hdr ∨ bgp_notify_size L (n.length + len) < n.size) := by omega
      have hoff : n.size - L.hdr = n.data.length := by omega
      have hcopy := memcpy_fault
        (n.data ++ List.replicate (bgp_notify_size L (n.length + len) - n.size) 0) n.length d len
        (by simp only [List.length_append, List.length_replicate]; omega)
      rw [htake, hcnt]
      cases hin : m.inplace p <;>
        simp only [Bool.false_eq_true, if_false, if_true, Mem.store, Function.update_same,
          hnot, hoff, memset_tail, hcopy]

theorem memcpy_some (dst : List Byte) (off : Nat) (src : List Byte) (cnt : Nat)
    (r : List Byte) (h : memcpy dst off src cnt = some r) :
    off + cnt ≤ dst.length ∧ cnt ≤ src.length := by
  unfold memcpy at h
  by_cases hc : off + cnt ≤ dst.length ∧ cnt ≤ src.length
  · exact hc
  · rw [if_neg hc] at h
    cases h

theorem memset_some (data : List Byte) (off cnt : Nat) (v : Byte) (r : List Byte)
    (h : memset data off cnt v = some r) : r.length = data.length := by
  unfold memset at h
  by_cases hc : off + cnt ≤ data.length
  · rw [if_pos hc] at h
    cases h
    simp only [List.length_append, List.length_take, List.length_replicate, List.length_drop]
    omega
  · rw [if_neg hc] at h
    cases h

theorem XREALLOC_some (L : Layout) (m : Mem) (a : Addr) (size : Nat) (q : Addr) (m1 : Mem)
    (n : bgp_notify) (hp : m.heap a = some n) (h : XREALLOC L m a size = some (q, m1)) :
    L.hdr ≤ size ∧
    m1.heap q = some { n with data := n.data.take (size - L.hdr) ++
                         List.replicate (size - L.hdr - n.data.length) m.junk } := by
  unfold XREALLOC at h
  simp only [hp] at h
  by_cases hs : size < L.hdr
  · rw [if_pos hs] at h
    cases h
  · rw [if_neg hs] at h
    refine ⟨by omega, ?_⟩
    cases hin : m.inplace a
    · simp only [hin, Bool.false_eq_true, if_false, Option.some.injEq, Prod.mk.injEq] at h
      obtain ⟨hq, hm⟩ := h
      subst hq hm
      simp
    · simp only [hin, if_true, Option.some.injEq, Prod.mk.injEq] at h
      obtain ⟨hq, hm⟩ := h
      subst hq hm
      simp [Mem.store]

theorem bgp_notify_append_data_zero_aux (L : Layout) (m : Mem) (p : Addr) (n : bgp_notify)
    (data : List Byte)
    (hp : m.heap p = some n) (hwf : n.wf L) (hcap : L.hdr + n.length ≤ n.size) :
    bgp_notify_append_data L m p data 0 = some (p, m) := by
  rw [append_data_nogrow L m p n data 0 hp hwf (Nat.zero_le _) (by omega)]
  have h : ({ n with length := n.length + 0,
                     data := n.data.take n.length ++ data.take 0 ++
                             n.data.drop (n.length + 0) } : bgp_notify) = n := by
    simp
  rw [h]
  simp [Mem.store, ← hp]

theorem append_data_inv (L : Layout) (m : Mem) (p : Addr) (n : bgp_notify)
    (d : List Byte) (len : Nat) (p1 : Addr) (m1 : Mem)
    (hp : m.heap p = some n) (hwf : n.wf L) (hcap : L.hdr + n.length ≤ n.size)
    (h : bgp_notify_append_data L m p d len = some (p1, m1)) :
    (len = 0 ∨ len ≤ d.length) ∧
    (L.hdr + (n.length + len) ≤ n.size ∨
      (n.size ≤ bgp_notify_size L (n.length + len) ∧
       L.hdr + (n.length + len) ≤ bgp_notify_size L (n.length + len))) := by
  obtain ⟨hsz, hlt⟩ := hwf
  unfold bgp_notify_append_data at h
  simp only [hp] at h
  by_cases hl : 0 < len
  · have hS := bgp_notify_size_lt L ((n.length + len) % 2 ^ L.bits)
    have hmodle := Nat.mod_le (n.length + len) (2 ^ L.bits)
    generalize hnl : (n.length + len) % 2 ^ L.bits = nl at h hS hmodle
    simp only [gt_iff_lt, hl, if_true] at h
    split at h
    · cases h
    · rename_i q m2 hgrown
      split at h
      · cases h
      · rename_i n2 hn2
        split at h
        · cases h
        · rename_i r hcopy
          obtain ⟨hc1, hc2⟩ := memcpy_some _ _ _ _ _ hcopy
          refine ⟨Or.inr hc2, ?_⟩
          split at hgrown
          · rename_i hg
            split at hgrown
            · cases hgrown
            · rename_i q1 m3 hre
              obtain ⟨hre1, hre2⟩ := XREALLOC_some L m p _ q1 m3 n hp hre
              rw [hre2] at hgrown
              simp only at hgrown
              split at hgrown
              · cases hgrown
              · rename_i hguard
                split at hgrown
                · cases hgrown
                · rename_i d1 hset
                  have hlen1 := memset_some _ _ _ _ _ hset
                  simp only [Option.some.injEq, Prod.mk.injEq] at hgrown
                  obtain ⟨hq, hm2⟩ := hgrown
                  subst hq hm2
                  simp only [Mem.store, Function.update_same, Option.some.injEq] at hn2
                  subst hn2
                  simp only [List.length_append, List.length_take, List.length_replicate]
                    at hlen1
                  simp only at hc1
                  have hb : n.length + len < 2 ^ L.bits := by omega
                  rw [Nat.mod_eq_of_lt hb] at hnl
                  subst hnl
                  exact Or.inr ⟨by omega, by omega⟩
          · simp only [Option.some.injEq, Prod.mk.injEq] at hgrown
            obtain ⟨hq, hm2⟩ := hgrown
            subst hq hm2
            rw [hp] at hn2
            cases hn2
            exact Or.inl (by omega)
  · have h0 : len = 0 := by omega
    subst h0
    exact ⟨Or.inl rfl, Or.inl (by omega)⟩


theorem new_ok (L : Layout) (m : Mem) (code subcode expect : Nat)
    (h : L.hdr ≤ bgp_notify_size L expect) :
    bgp_notify_new L m code subcode expect =
      some (m.next,
        { m with heap := Function.update m.heap m.next
                   (some { code := code, subcode := subcode, length := 0,
                           size := bgp_notify_size L expect,
                           data := List.replicate (bgp_notify_size L expect - L.hdr) 0 }),
                 next := m.next + 1 }) := by
  unfold bgp_notify_new
  simp only [not_lt.mpr h, if_false, Mem.alloc]

theorem new_post (L : Layout) (m : Mem) (code subcode expect : Nat) (a : Addr) (m1 : Mem)
    (n : bgp_notify) (h : bgp_notify_new L m code subcode expect = some (a, m1))
    (hn : m1.heap a = some n) :
    L.hdr ≤ bgp_notify_size L expect ∧
    n = { code := code, subcode := subcode, length := 0, size := bgp_notify_size L expect,
          data := List.replicate (bgp_notify_size L expect - L.hdr) 0 } := by
  unfold bgp_notify_new at h
  by_cases hs : bgp_notify_size L expect < L.hdr
  · simp only [hs, if_true] at h
    cases h
  · simp only [hs, if_false, Mem.alloc, Option.some.injEq, Prod.mk.injEq] at h
    obtain ⟨ha, hm⟩ := h
    subst ha hm
    simp only [Function.update_same, Option.some.injEq] at hn
    exact ⟨by omega, hn.symm⟩

theorem append_data_post (L : Layout) (m : Mem) (p : Addr) (n : bgp_notify)
    (d : List Byte) (len : Nat) (p1 : Addr) (m1 : Mem)
    (hp : m.heap p = some n) (hwf : n.wf L) (hcap : L.hdr + n.length ≤ n.size)
    (h : bgp_notify_append_data L m p d len = some (p1, m1)) :
    ∃ n1, m1.heap p1 = some n1 ∧ n1.wf L ∧ L.hdr + n1.length ≤ n1.size ∧
      n1.length = n.length + len ∧ n1.code = n.code ∧ n1.subcode = n.subcode ∧
      n1.size = (if L.hdr + (n.length + len) ≤ n.size then n.size
                 else bgp_notify_size L (n.length + len)) ∧
      n.size ≤ n1.size ∧
      n1.data = (n.data ++ List.replicate (n1.size - n.size) 0).take n.length ++
                d.take len ++
                (n.data ++ List.replicate (n1.size - n.size) 0).drop (n.length + len) := by
  obtain ⟨hd, hfit⟩ := append_data_inv L m p n d len p1 m1 hp hwf hcap h
  have hsz := hwf.1
  have hlt := hwf.2
  have hS := bgp_notify_size_lt L (n.length + len)
  by_cases hl : len = 0
  · subst hl
    rw [bgp_notify_append_data_zero_aux L m p n d hp hwf hcap] at h
    simp only [Option.some.injEq, Prod.mk.injEq] at h
    obtain ⟨hq, hm⟩ := h
    subst hq hm
    have hg : L.hdr + (n.length + 0) ≤ n.size := by omega
    refine ⟨n, hp, hwf, hcap, rfl, rfl, rfl, by rw [if_pos hg], le_refl _, ?_⟩
    simp
  · have hd1 : len ≤ d.length := by
      rcases hd with h0 | h0
      · exact absurd h0 hl
      · exact h0
    obtain ⟨q, m2, S, h1, hSdef, h2, _⟩ := append_data_ok L m p n d len hp hwf hd1 hfit
    rw [h1] at h
    simp only [Option.some.injEq, Prod.mk.injEq] at h
    obtain ⟨hq, hm⟩ := h
    subst hq hm
    have hSge : n.size ≤ S := by
      rw [hSdef]
      split
      · exact le_refl _
      · rcases hfit with h0 | h0
        · omega
        · exact h0.1
    have hScap : L.hdr + (n.length + len) ≤ S := by
      rw [hSdef]
      split
      · assumption
      · rcases hfit with h0 | h0
        · omega
        · exact h0.2
    have hSlt : S < 2 ^ L.bits := by
      rw [hSdef]
      split
      · exact hlt
      · exact hS
    refine ⟨_, h2, ⟨?_, hSlt⟩, by simpa using hScap, rfl, rfl, rfl, hSdef, hSge, rfl⟩
    simp only [List.length_append, List.length_take, List.length_replicate, List.length_drop]
    omega

theorem built_inv (L : Layout) (n : bgp_notify) (h : Built L n) :
    n.wf L ∧ L.hdr + n.length ≤ n.size := by
  induction h with
  | new m code subcode expect a m1 n h hn =>
    obtain ⟨h1, h2⟩ := new_post L m code subcode expect a m1 n h hn
    subst h2
    refine ⟨⟨?_, bgp_notify_size_lt L expect⟩, ?_⟩
    · simp only [List.length_replicate]
      omega
    · simp only
      omega
  | append m p n d len p1 m1 n1 _ hp h hn ih =>
    obtain ⟨n2, h1, h2, h3, _⟩ := append_data_post L m p n d len p1 m1 hp ih.1 ih.2 h
    rw [h1] at hn
    cases hn
    exact ⟨h2, h3⟩


theorem built_blk0 : Built L16 blk0 :=
  Built.new Mem.empty 6 2 0 0 mem1 blk0 rfl rfl

theorem built_blk20 : Built L16 blk20 :=
  Built.append mem1 0 blk0 bytes20 20 0 mem2 blk20 built_blk0 rfl
    (by
      rw [append_data_nogrow L16 mem1 0 blk0 bytes20 20 rfl (by decide) (by decide) (by decide)]
      rfl)
    rfl

/-- C3, counterexample: under a 16-bit `bgp_size_t`, appending 65535 bytes to the
notification that `bgp_notify_new(6, 2, 0)` returns meets every condition of the
claim (`0 + 65535` fits in `bgp_size_t`), but `bgp_notify_size(65535)` wraps
around to `8 + 32`, the block stays 40 bytes long and the `memcpy` of 65535
bytes runs out of it. -/
theorem bgp_notify_append_data_overflow :
    ∃ m n, bgp_notify_new L16 Mem.empty 6 2 0 = some (0, m) ∧ m.heap 0 = some n ∧
      n.wf L16 ∧ L16.hdr + n.length ≤ n.size ∧
      (List.replicate 65535 (7 : Byte)).length = 65535 ∧
      n.length + 65535 < 2 ^ L16.bits ∧
      bgp_notify_append_data L16 m 0 (List.replicate 65535 7) 65535 = none := by
  refine ⟨_, _, rfl, rfl, by decide, by decide, List.length_replicate _ _, by decide, ?_⟩
  exact append_data_fault L16 _ 0 _ _ 65535 rfl (by decide) (by decide) (by decide)
    (by decide) (by decide)

/-- C3, amended: for every notification `n` with
`sizeof(struct bgp_notify) + n.length <= n.size` and every byte string `d` of length
`len` such that either the bytes fit in the block as it is or the sum computed by
`bgp_notify_size(n.length + len)` fits in `bgp_size_t`, `bgp_notify_append_data`
returns a notification whose length is `n.length + len`, whose first `n.length`
payload bytes are those of `n`, whose next `len` payload bytes are `d`, and whose
code and subcode are those of `n`. -/
theorem bgp_notify_append_data_spec (L : Layout) (m : Mem) (p : Addr) (n : bgp_notify)
    (d : List Byte) (len : Nat)
    (hp : m.heap p = some n) (hwf : n.wf L) (hcap : L.hdr + n.length ≤ n.size)
    (hd : d.length = len)
    (hfit : L.hdr + (n.length + len) ≤ n.size ∨
            L.hdr + ((n.length + len + 32 + 16 - 1) / 32) * 32 < 2 ^ L.bits) :
    ∃ p1 m1 n1, bgp_notify_append_data L m p d len = some (p1, m1) ∧
      m1.heap p1 = some n1 ∧
      n1.length = n.length + len ∧
      n1.data.take n.length = n.data.take n.length ∧
      (n1.data.drop n.length).take len = d ∧
      n1.code = n.code ∧ n1.subcode = n.subcode := by
  obtain ⟨p1, m1, S, h1, _, h2, _⟩ :=
    append_data_ok L m p n d len hp hwf (by omega) (grow_of_fit L n len hfit)
  have hlen : n.length ≤ n.data.length := by
    have := hwf.1
    omega
  refine ⟨p1, m1, _, h1, h2, rfl, ?_, ?_, rfl, rfl⟩
  · simp only [List.append_assoc]
    rw [List.take_append_of_le_length hlen, List.take_append_of_le_length (by simp [hlen])]
    simp
  · simp only [List.append_assoc]
    rw [List.take_append_of_le_length hlen]
    have h3 : (List.take n.length n.data).length = n.length := by simp [hlen]
    rw [List.drop_append_of_le_length (by omega), List.drop_of_length_le (by omega)]
    simp [hd]

/-- Witness for C3: 20 more bytes appended to a notification that holds 20 bytes
in a capacity of 32, so that the block grows. -/
theorem bgp_notify_append_data_spec_witness :
    ∃ p1 m1 n1, bgp_notify_append_data L16 mem2 0 bytes20 20 = some (p1, m1) ∧
      m1.heap p1 = some n1 ∧ n1.length = blk20.length + 20 ∧
      n1.data.take blk20.length = blk20.data.take blk20.length ∧
      (n1.data.drop blk20.length).take 20 = bytes20 ∧
      n1.code = blk20.code ∧ n1.subcode = blk20.subcode :=
  bgp_notify_append_data_spec L16 mem2 0 blk20 bytes20 20 rfl (by decide) (by decide) rfl
    (Or.inr (by decide))

/-- C8: appending zero bytes is the identity.  For every notification `n` with
`sizeof(struct bgp_notify) + n.length <= n.size`, whatever `data` is,
`bgp_notify_append_data(n, data, 0)` returns a notification with the code, subcode,
length, size and payload of `n`: the block returned is `n`, at the same address, in
a memory that is as it was. -/
theorem bgp_notify_append_data_zero (L : Layout) (m : Mem) (p : Addr) (n : bgp_notify)
    (data : List Byte)
    (hp : m.heap p = some n) (hwf : n.wf L) (hcap : L.hdr + n.length ≤ n.size) :
    ∃ p1 m1, bgp_notify_append_data L m p data 0 = some (p1, m1) ∧
      m1.heap p1 = some n ∧ p1 = p ∧ m1 = m :=
  ⟨p, m, bgp_notify_append_data_zero_aux L m p n data hp hwf hcap, hp, rfl, rfl⟩

/-- Witness for C8: zero bytes appended to the notification of `mem2`, with no
data at all. -/
theorem bgp_notify_append_data_zero_witness :
    ∃ p1 m1, bgp_notify_append_data L16 mem2 0 [] 0 = some (p1, m1) ∧
      m1.heap p1 = some blk20 ∧ p1 = 0 ∧ m1 = mem2 :=
  bgp_notify_append_data_zero L16 mem2 0 blk20 [] rfl (by decide) (by decide)

/-- C10, counterexample: `bgp_notify_new(6, 2, 0)` followed by an append of 20 bytes
gives a notification of size `8 + 32` and length 20, which has 12 bytes left, not
16. -/
theorem bgp_notify_append_data_slack_lost :
    bgp_notify_new L16 Mem.empty 6 2 0 = some (0, mem1) ∧
    bgp_notify_append_data L16 mem1 0 bytes20 20 = some (0, mem2) ∧
    mem2.heap 0 = some blk20 ∧
    blk20.size - L16.hdr - blk20.length = 12 := by
  refine ⟨rfl, ?_, rfl, by decide⟩
  rw [append_data_nogrow L16 mem1 0 blk0 bytes20 20 rfl (by decide) (by decide) (by decide)]
  rfl

/-- C10, amended: every notification obtained from `bgp_notify_new` by a sequence of
`bgp_notify_append_data` calls keeps its payload within its size,
`size - sizeof(struct bgp_notify) - length >= 0`; at least 16 bytes are available
beyond the length in the notification that `bgp_notify_new` returns and in the one
returned by a `bgp_notify_append_data` call that has to grow the block (the sum
computed by `bgp_notify_size` fitting in `bgp_size_t` in both cases); a call whose
data fits in the block leaves `size` as it is, so that the bytes available go down
by `len`. -/
theorem built_slack (L : Layout) :
    (∀ n, Built L n → L.hdr + n.length ≤ n.size) ∧
    (∀ m code subcode expect,
      L.hdr + ((expect + 32 + 16 - 1) / 32) * 32 < 2 ^ L.bits →
      ∃ a m1 n, bgp_notify_new L m code subcode expect = some (a, m1) ∧
        m1.heap a = some n ∧ 16 ≤ n.size - L.hdr - n.length) ∧
    (∀ m p n d len, Built L n → m.heap p = some n → len ≤ d.length →
      n.size < L.hdr + (n.length + len) →
      L.hdr + ((n.length + len + 32 + 16 - 1) / 32) * 32 < 2 ^ L.bits →
      ∃ p1 m1 n1, bgp_notify_append_data L m p d len = some (p1, m1) ∧
        m1.heap p1 = some n1 ∧ 16 ≤ n1.size - L.hdr - n1.length) ∧
    (∀ m p n d len, Built L n → m.heap p = some n → len ≤ d.length →
      L.hdr + (n.length + len) ≤ n.size →
      ∃ p1 m1 n1, bgp_notify_append_data L m p d len = some (p1, m1) ∧
        m1.heap p1 = some n1 ∧ n1.size = n.size ∧ n1.length = n.length + len) := by
  refine ⟨fun n h => (built_inv L n h).2, ?_, ?_, ?_⟩
  · intro m code subcode expect hfit
    have hS := bgp_notify_size_of_fit L expect hfit
    have hge : ¬ bgp_notify_size L expect < L.hdr := by omega
    refine ⟨m.next, _, ⟨code, subcode, 0, bgp_notify_size L expect,
      List.replicate (bgp_notify_size L expect - L.hdr) 0⟩,
      new_ok L m code subcode expect (by omega), ?_, ?_⟩
    · simp only [Function.update_same]
    · simp only
      omega
  · intro m p n d len hb hp hd hg hfit
    have hi := built_inv L n hb
    have hS := bgp_notify_size_of_fit L (n.length + len) hfit
    obtain ⟨p1, m1, h1, h2, _⟩ :=
      append_data_grow L m p n d len hp hi.1 hd hg (by omega) (by omega)
    refine ⟨p1, m1, _, h1, h2, ?_⟩
    simp only
    omega
  · intro m p n d len hb hp hd hg
    have hi := built_inv L n hb
    have h1 := append_data_nogrow L m p n d len hp hi.1 hd hg
    have h2 : ∀ b : bgp_notify, (m.store p b).heap p = some b := by
      intro b
      simp only [Mem.store, Function.update_same]
    exact ⟨p, _, _, h1, h2 _, rfl, rfl⟩

/-- Witness for C10: the notification with 20 bytes in a capacity of 32 is obtained
from `bgp_notify_new` by one append and its payload is within its size;
`bgp_notify_new(6, 2, 0)` leaves 16 bytes or more; so does the append of 20 more
bytes to the former, which grows the block; and the append of 20 bytes to the new
notification, which fits, leaves the size as it is. -/
theorem built_slack_witness :
    L16.hdr + blk20.length ≤ blk20.size ∧
    (∃ a m1 n, bgp_notify_new L16 Mem.empty 6 2 0 = some (a, m1) ∧
      m1.heap a = some n ∧ 16 ≤ n.size - L16.hdr - n.length) ∧
    (∃ p1 m1 n1, bgp_notify_append_data L16 mem2 0 bytes20 20 = some (p1, m1) ∧
      m1.heap p1 = some n1 ∧ 16 ≤ n1.size - L16.hdr - n1.length) ∧
    (∃ p1 m1 n1, bgp_notify_append_data L16 mem1 0 bytes20 20 = some (p1, m1) ∧
      m1.heap p1 = some n1 ∧ n1.size = blk0.size ∧ n1.length = blk0.length + 20) :=
  ⟨(built_slack L16).1 blk20 built_blk20,
    (built_slack L16).2.1 Mem.empty 6 2 0 (by decide),
    (built_slack L16).2.2.1 mem2 0 blk20 bytes20 20 built_blk20 rfl (by decide) (by decide)
      (by decide),
    (built_slack L16).2.2.2 mem1 0 blk0 bytes20 20 built_blk0 rfl (by decide) (by decide)⟩

/-! ### Duplication -/

theorem dup_ok (L : Layout) (m : Mem) (a : Addr) (n : bgp_notify)
    (hp : m.heap a = some n) (hwf : n.wf L)
    (h1 : L.hdr ≤ bgp_notify_size L n.length)
    (h2 : bgp_notify_size L n.length ≤ n.size) :
    bgp_notify_dup L m (some a) =
      some (some m.next,
        { m with heap := Function.update m.heap m.next
                   (some { n with size := bgp_notify_size L n.length,
                                  data := n.data.take (bgp_notify_size L n.length - L.hdr) }),
                 next := m.next + 1 }) := by
  have h3 : bgp_notify_size L n.length ≤ L.hdr + n.data.length := by
    have := hwf.1
    omega
  unfold bgp_notify_dup
  simp only [hp, h1, h3, and_self, if_true, Mem.alloc]

theorem dup_fault (L : Layout) (m : Mem) (a : Addr) (n : bgp_notify)
    (hp : m.heap a = some n) (hwf : n.wf L)
    (h : n.size < bgp_notify_size L n.length) :
    bgp_notify_dup L m (some a) = none := by
  have h3 : ¬ bgp_notify_size L n.length ≤ L.hdr + n.data.length := by
    have := hwf.1
    omega
  unfold bgp_notify_dup
  simp only [hp, h3, and_false, if_false]

/-- C4, the code at the failing input: the notification that `bgp_notify_new(6, 2, 0)`
followed by an append of 20 bytes gives satisfies
`sizeof(struct bgp_notify) + length <= size`, its block is 40 bytes long, and
`bgp_notify_dup` copies `bgp_notify_size(20) = 8 + 64` bytes out of it: the read
runs out of the block. -/
theorem bgp_notify_dup_overread :
    bgp_notify_new L16 Mem.empty 6 2 0 = some (0, mem1) ∧
    bgp_notify_append_data L16 mem1 0 bytes20 20 = some (0, mem2) ∧
    mem2.heap 0 = some blk20 ∧ blk20.wf L16 ∧ L16.hdr + blk20.length ≤ blk20.size ∧
    blk20.size < bgp_notify_size L16 blk20.length ∧
    bgp_notify_dup L16 mem2 (some 0) = none := by
  refine ⟨rfl, ?_, rfl, by decide, by decide, by decide, ?_⟩
  · rw [append_data_nogrow L16 mem1 0 blk0 bytes20 20 rfl (by decide) (by decide) (by decide)]
    rfl
  · exact dup_fault L16 mem2 0 blk20 rfl (by decide) (by decide)

/-! ### Pointer variables -/

theorem free_slot_ok (m : Mem) (p : Option Addr)
    (hlive : ∀ a, p = some a → (m.heap a).isSome = true) :
    ∃ m1, bgp_notify_free m p = some m1 ∧ m1.slot = m.slot ∧ m1.next = m.next ∧
      (∀ a, p = some a → m1.heap a = none ∧ m1.freed = m.freed ++ [a]) ∧
      (p = none → m1.freed = m.freed ∧ m1.heap = m.heap) ∧
      (∀ a, p ≠ some a → m1.heap a = m.heap a) := by
  cases p with
  | none =>
    exact ⟨m, rfl, rfl, rfl, fun a h => (by cases h), fun _ => ⟨rfl, rfl⟩, fun _ _ => rfl⟩
  | some b =>
    have hb := hlive b rfl
    refine ⟨{ m with heap := Function.update m.heap b none, freed := m.freed ++ [b] },
      ?_, rfl, rfl, ?_, fun h => (by cases h), ?_⟩
    · simp only [bgp_notify_free, XFREE, hb, if_true]
    · intro a h
      cases h
      exact ⟨by simp, rfl⟩
    · intro a h
      have hab : a ≠ b := fun e => h (by rw [e])
      simp [Function.update_noteq hab]

theorem set_slot_ok (m : Mem) (p_dst : Nat) (src : Option Addr)
    (hlive : ∀ a, m.slot p_dst = some a → (m.heap a).isSome = true)
    (hne : ∀ a, src = some a → m.slot p_dst ≠ some a) :
    ∃ m1, bgp_notify_set m p_dst src = some m1 ∧
      m1.slot p_dst = src ∧
      (∀ s, s ≠ p_dst → m1.slot s = m.slot s) ∧
      (∀ a, m.slot p_dst = some a → m1.heap a = none ∧ m1.freed = m.freed ++ [a]) ∧
      (m.slot p_dst = none → m1.freed = m.freed ∧ m1.heap = m.heap) ∧
      (∀ a, m.slot p_dst ≠ some a → m1.heap a = m.heap a) ∧
      (∀ a, src = some a → m1.heap a = m.heap a) := by
  obtain ⟨m1, h1, h2, _, h4, h5, h6⟩ := free_slot_ok m (m.slot p_dst) hlive
  refine ⟨{ m1 with slot := Function.update m1.slot p_dst src }, ?_, ?_, ?_, h4, h5, h6, ?_⟩
  · simp only [bgp_notify_set, h1]
  · simp
  · intro s hs
    simp [Function.update_noteq hs, h2]
  · intro a ha
    exact h6 a (hne a ha)

theorem mem1s_ok : mem1s.ok := by
  intro a ha
  have h : a ≠ 0 := by
    intro e
    rw [e] at ha
    exact absurd ha (by decide)
  show Function.update (fun _ => none) 0 (some blk0) a = none
  rw [Function.update_noteq h]

/-- C5, counterexample: the pointer variables 0 and 2 hold the same notification and
the pointer variable 1 is `NULL`; after `bgp_notify_set_mov` from 0 to 1 the
destination 1 holds the notification, the source 0 is `NULL`, no other slot is
changed, and the slot 2 still refers to the moved notification, which is therefore
not referenced by the destination only. -/
theorem bgp_notify_set_mov_shared :
    mem3.slot 0 = some 0 ∧ mem3.slot 1 = none ∧ mem3.slot 2 = some 0 ∧
    mem3.heap 0 = some blk0 ∧
    ∃ m1, bgp_notify_set_mov mem3 1 0 = some m1 ∧
      m1.slot 1 = some 0 ∧ m1.slot 0 = none ∧ m1.slot 2 = some 0 ∧
      m1.heap 0 = some blk0 :=
  ⟨rfl, rfl, rfl, rfl, _, rfl, rfl, rfl, rfl, rfl⟩

/-- C5, amended: for distinct slots `p_dst` and `p_src` (the destination holding `NULL`
or a live notification), after `bgp_notify_set_mov` the destination holds what the
source held, the source is `NULL`, the notification the destination held has been
released (and nothing else: the other blocks are as they were), and no other slot
is changed; when no slot but the source referred to the notification moved, that
notification is as it was and is referred to by the destination only. -/
theorem bgp_notify_set_mov_spec (m : Mem) (p_dst p_src : Nat) (hds : p_dst ≠ p_src)
    (hlive : ∀ a, m.slot p_dst = some a → (m.heap a).isSome = true) :
    ∃ m1, bgp_notify_set_mov m p_dst p_src = some m1 ∧
      m1.slot p_dst = m.slot p_src ∧
      m1.slot p_src = none ∧
      (∀ s, s ≠ p_dst → s ≠ p_src → m1.slot s = m.slot s) ∧
      (∀ a, m.slot p_dst = some a → m1.heap a = none ∧ m1.freed = m.freed ++ [a]) ∧
      (m.slot p_dst = none → m1.freed = m.freed ∧ m1.heap = m.heap) ∧
      (∀ a, m.slot p_dst ≠ some a → m1.heap a = m.heap a) ∧
      (∀ a, m.slot p_src = some a → (∀ s, s ≠ p_src → m.slot s ≠ some a) →
        m1.heap a = m.heap a ∧ ∀ s, s ≠ p_dst → m1.slot s ≠ some a) := by
  obtain ⟨m1, h1, h2, _, h4, h5, h6⟩ := free_slot_ok m (m.slot p_dst) hlive
  refine ⟨{ m1 with
      slot := Function.update (Function.update m1.slot p_dst (m1.slot p_src)) p_src none },
    ?_, ?_, ?_, ?_, h4, h5, h6, ?_⟩
  · simp only [bgp_notify_set_mov, h1]
  · simp [Function.update_noteq hds, h2]
  · simp
  · intro s hs1 hs2
    simp [Function.update_noteq hs1, Function.update_noteq hs2, h2]
  · intro a ha hsole
    refine ⟨h6 a (hsole p_dst hds), ?_⟩
    intro s hs
    by_cases hsrc : s = p_src
    · subst hsrc
      simp
    · simp [Function.update_noteq hs, Function.update_noteq hsrc, h2]
      exact hsole s hsrc

/-- Witness for C5: the notification of slot 0 moved to slot 1, which holds another
notification: that one is released, and the notification moved, which only slot 0
referred to, is as it was and referred to by slot 1 only. -/
theorem bgp_notify_set_mov_spec_witness :
    mem_two.slot 0 = some 0 ∧ mem_two.slot 1 = some 1 ∧
    ∃ m1, bgp_notify_set_mov mem_two 1 0 = some m1 ∧
      m1.slot 1 = some 0 ∧ m1.slot 0 = none ∧
      m1.heap 1 = none ∧ m1.freed = [1] ∧
      m1.heap 0 = some blk0 ∧ (∀ s, s ≠ 1 → m1.slot s ≠ some 0) := by
  have hlive : ∀ a, mem_two.slot 1 = some a → (mem_two.heap a).isSome = true := by
    intro a h
    have e : a = 1 := (Option.some.inj h).symm
    rw [e]
    rfl
  have hsole : ∀ s, s ≠ 0 → mem_two.slot s ≠ some 0 := by
    intro s hs
    by_cases h1 : s = 1
    · rw [h1]
      decide
    · show Function.update (Function.update (fun _ => none) 0 (some 0)) 1 (some 1) s ≠ some 0
      rw [Function.update_noteq h1, Function.update_noteq hs]
      exact fun h => (by cases h)
  obtain ⟨m1, h1, h2, h3, _, h5, _, _, h8⟩ :=
    bgp_notify_set_mov_spec mem_two 1 0 (by decide) hlive
  obtain ⟨h9, h10⟩ := h8 0 rfl hsole
  exact ⟨rfl, rfl, m1, h1, h2, h3, (h5 1 rfl).1, (h5 1 rfl).2, h9, h10⟩

/-- C6, counterexample: when the destination slot already holds `src`,
`bgp_notify_set_dup` installs the duplicate (at address 1) and releases `src`
itself (address 0), which is therefore not left unchanged to the caller. -/
theorem bgp_notify_set_dup_alias :
    mem1s.slot 0 = some 0 ∧ mem1s.heap 0 = some blk0 ∧
    ∃ m1, bgp_notify_set_dup L16 mem1s 0 (some 0) = some m1 ∧
      m1.slot 0 = some 1 ∧ m1.heap 0 = none ∧ m1.freed = [0] := by
  refine ⟨rfl, rfl, ?_⟩
  have hd := dup_ok L16 mem1s 0 blk0 rfl (by decide) (by decide) (by decide)
  simp only [bgp_notify_set_dup, hd]
  exact ⟨_, rfl, rfl, rfl, rfl⟩

/-- C6, amended: in a memory whose allocator hands out unused addresses, for every
destination slot (holding `NULL` or a live notification) and every source `src`
that is `NULL`, or is a notification that the destination does not hold and whose
block has the `bgp_notify_size(src.length)` bytes that
`bgp_notify_dup` copies (a size that covers `sizeof(struct bgp_notify) + src.length`):
after `bgp_notify_set_dup` the destination holds the duplicate that
`bgp_notify_dup` returns, a block other than `src` with the code, subcode, length
and payload up to length of `src`; the notification the destination held has
been released; `src` is unchanged; no other slot is changed; and when `src` is
`NULL` the destination becomes `NULL`. -/
theorem bgp_notify_set_dup_spec (L : Layout) (m : Mem) (p_dst : Nat) (src : Option Addr)
    (hok : m.ok)
    (hlive : ∀ a, m.slot p_dst = some a → (m.heap a).isSome = true)
    (hsrc : ∀ a, src = some a → m.slot p_dst ≠ some a ∧
      ∃ n, m.heap a = some n ∧ n.wf L ∧
        L.hdr + n.length ≤ bgp_notify_size L n.length ∧
        bgp_notify_size L n.length ≤ n.size) :
    ∃ m1, bgp_notify_set_dup L m p_dst src = some m1 ∧
      (src = none → m1.slot p_dst = none) ∧
      (∀ a n, src = some a → m.heap a = some n →
        m1.heap a = some n ∧
        ∃ d m2 nd, bgp_notify_dup L m src = some (some d, m2) ∧ m2.heap d = some nd ∧
          m1.slot p_dst = some d ∧ d ≠ a ∧ m1.heap d = some nd ∧
          nd.code = n.code ∧ nd.subcode = n.subcode ∧ nd.length = n.length ∧
          nd.data.take n.length = n.data.take n.length) ∧
      (∀ b, m.slot p_dst = some b → m1.heap b = none ∧ m1.freed = m.freed ++ [b]) ∧
      (∀ s, s ≠ p_dst → m1.slot s = m.slot s) := by
  cases src with
  | none =>
    obtain ⟨m1, h1, h2, h3, h4, _⟩ := set_slot_ok m p_dst none hlive (fun a h => (by cases h))
    refine ⟨m1, ?_, fun _ => h2, fun a n h => (by cases h), h4, h3⟩
    simp only [bgp_notify_set_dup, bgp_notify_dup, h1]
  | some a =>
    obtain ⟨hne, n, hp, hwf, hc1, hc2⟩ := hsrc a rfl
    have hd := dup_ok L m a n hp hwf (by omega) hc2
    have hfresh : ∀ b, (m.heap b).isSome = true → b ≠ m.next := by
      intro b hb e
      rw [e, hok m.next (le_refl _)] at hb
      cases hb
    have ha : a ≠ m.next := hfresh a (by rw [hp]; rfl)
    have hlive2 : ∀ b, m.slot p_dst = some b →
        ((Function.update m.heap m.next
          (some { n with size := bgp_notify_size L n.length,
                         data := n.data.take (bgp_notify_size L n.length - L.hdr) })) b).isSome
          = true := by
      intro b hb
      rw [Function.update_noteq (hfresh b (hlive b hb))]
      exact hlive b hb
    have hne2 : ∀ b, some m.next = some b → m.slot p_dst ≠ some b := by
      intro b hb hs
      cases hb
      exact hfresh m.next (hlive m.next hs) rfl
    obtain ⟨m1, h1, h2, h3, h4, _, h6, _⟩ := set_slot_ok
      { m with heap := Function.update m.heap m.next
                 (some { n with size := bgp_notify_size L n.length,
                                data := n.data.take (bgp_notify_size L n.length - L.hdr) }),
               next := m.next + 1 }
      p_dst (some m.next) hlive2 hne2
    refine ⟨m1, ?_, fun h => (by cases h), ?_, ?_, h3⟩
    · simp only [bgp_notify_set_dup, hd, h1]
    · intro a1 n1 he hp1
      cases he
      rw [hp] at hp1
      cases hp1
      refine ⟨?_, m.next, _,
        { n with size := bgp_notify_size L n.length,
                 data := n.data.take (bgp_notify_size L n.length - L.hdr) },
        hd, ?_, h2, Ne.symm ha, ?_, rfl, rfl, rfl, ?_⟩
      · rw [h6 a hne]
        simp [Function.update_noteq ha, hp]
      · simp
      · rw [h6 m.next (hne2 m.next rfl)]
        simp
      · simp only [List.take_take]
        congr 1
        omega
    · intro b hb
      exact h4 b hb

/-- Witness for C6: the notification of slot 0 duplicated into the empty slot 1. -/
theorem bgp_notify_set_dup_spec_witness :
    ∃ m1, bgp_notify_set_dup L16 mem1s 1 (some 0) = some m1 ∧
      ((some 0 : Option Addr) = none → m1.slot 1 = none) ∧
      (∀ a n, some 0 = some a → mem1s.heap a = some n →
        m1.heap a = some n ∧
        ∃ d m2 nd, bgp_notify_dup L16 mem1s (some 0) = some (some d, m2) ∧
          m2.heap d = some nd ∧
          m1.slot 1 = some d ∧ d ≠ a ∧ m1.heap d = some nd ∧
          nd.code = n.code ∧ nd.subcode = n.subcode ∧ nd.length = n.length ∧
          nd.data.take n.length = n.data.take n.length) ∧
      (∀ b, mem1s.slot 1 = some b → m1.heap b = none ∧ m1.freed = mem1s.freed ++ [b]) ∧
      (∀ s, s ≠ 1 → m1.slot s = mem1s.slot s) :=
  bgp_notify_set_dup_spec L16 mem1s 1 (some 0) mem1s_ok (fun a h => by cases h)
    (fun a h => by
      have e : a = 0 := (Option.some.inj h).symm
      rw [e]
      exact ⟨by decide, blk0, rfl, by decide, by decide, by decide⟩)

/-- C7: for every destination slot (holding `NULL` or a live notification) and
every `src` that the slot does not already hold, `NULL` included, after
`bgp_notify_set` the destination holds `src`, the notification the destination
held has been released exactly once (one entry more in the log of releases), a
destination that was `NULL` releases nothing, and every other block, that of
`src` among them, and every other slot is as it was. -/
theorem bgp_notify_set_spec (m : Mem) (p_dst : Nat) (src : Option Addr)
    (hlive : ∀ a, m.slot p_dst = some a → (m.heap a).isSome = true)
    (hne : ∀ a, src = some a → m.slot p_dst ≠ some a) :
    ∃ m1, bgp_notify_set m p_dst src = some m1 ∧
      m1.slot p_dst = src ∧
      (∀ s, s ≠ p_dst → m1.slot s = m.slot s) ∧
      (∀ a, m.slot p_dst = some a → m1.heap a = none ∧ m1.freed = m.freed ++ [a]) ∧
      (m.slot p_dst = none → m1.freed = m.freed ∧ m1.heap = m.heap) ∧
      (∀ a, m.slot p_dst ≠ some a → m1.heap a = m.heap a) ∧
      (∀ a, src = some a → m1.heap a = m.heap a) :=
  set_slot_ok m p_dst src hlive hne

/-- Witness for C7: `NULL` installed in slot 0, which holds a notification. -/
theorem bgp_notify_set_spec_witness :
    ∃ m1, bgp_notify_set mem1s 0 none = some m1 ∧
      m1.slot 0 = none ∧
      (∀ s, s ≠ 0 → m1.slot s = mem1s.slot s) ∧
      (∀ a, mem1s.slot 0 = some a → m1.heap a = none ∧ m1.freed = mem1s.freed ++ [a]) ∧
      (mem1s.slot 0 = none → m1.freed = mem1s.freed ∧ m1.heap = mem1s.heap) ∧
      (∀ a, mem1s.slot 0 ≠ some a → m1.heap a = mem1s.heap a) ∧
      (∀ a, (none : Option Addr) = some a → m1.heap a = mem1s.heap a) :=
  bgp_notify_set_spec mem1s 0 none
    (fun a h => by
      have e : a = 0 := (Option.some.inj h).symm
      rw [e]
      rfl)
    (fun a h => by cases h)

/-! ### The command execution state machine -/

theorem cq_run_head (s : cmd_exec_state) (os : List cmd_outcome) (t : List cmd_exec_state)
    (h : cq_run s os = some t) : t[0]? = some s := by
  cases os with
  | nil =>
    simp only [cq_run, Option.some.injEq] at h
    subst h
    rfl
  | cons o os =>
    simp only [cq_run] at h
    split at h
    · cases h
    · split at h
      · cases h
      · simp only [Option.some.injEq] at h
        subst h
        simp

theorem cq_step_late (s s1 : cmd_exec_state) (o : cmd_outcome) (hs : s.late = true)
    (h : cq_step s o = some s1) : s1.late = true := by
  cases s <;> simp [cmd_exec_state.late, cmd_exec_state.toNat] at hs <;>
    cases o <;> simp [cq_step] at h <;> subst h <;> rfl

theorem cq_step_complete (o : cmd_outcome) : cq_step .exec_complete o = none := by
  cases o <;> rfl

theorem cq_run_late (os : List cmd_outcome) :
    ∀ (s : cmd_exec_state) (t : List cmd_exec_state), s.late = true →
      cq_run s os = some t → ∀ x ∈ t, x.late = true := by
  induction os with
  | nil =>
    intro s t hs h x hx
    simp only [cq_run, Option.some.injEq] at h
    subst h
    simp only [List.mem_singleton] at hx
    subst hx
    exact hs
  | cons o os ih =>
    intro s t hs h x hx
    simp only [cq_run] at h
    split at h
    · cases h
    · rename_i s1 hstep
      split at h
      · cases h
      · rename_i t1 hrun
        simp only [Option.some.injEq] at h
        subst h
        rcases List.mem_cons.mp hx with hx | hx
        · subst hx
          exact hs
        · exact ih s1 t1 (cq_step_late s s1 o hs hstep) hrun x hx

theorem cq_run_complete (os : List cmd_outcome) (t : List cmd_exec_state)
    (h : cq_run .exec_complete os = some t) : t = [.exec_complete] := by
  cases os with
  | nil =>
    simp only [cq_run, Option.some.injEq] at h
    exact h.symm
  | cons o os =>
    simp only [cq_run, cq_step_complete] at h
    cases h

theorem cq_run_error (os : List cmd_outcome) :
    ∀ (s : cmd_exec_state) (t : List cmd_exec_state) (i : Nat) (st : cmd_exec_state),
      cq_run s os = some t → t[i]? = some st →
      (st = .exec_parse ∨ st = .exec_open_pipes) → os[i]? = some .error →
      t[i + 1]? = some .exec_complete ∧ cmd_exec_state.exec_execute ∉ t := by
  induction os with
  | nil =>
    intro s t i st _ _ _ ho
    simp at ho
  | cons o os ih =>
    intro s t i st h hst hpp ho
    simp only [cq_run] at h
    split at h
    · cases h
    · rename_i s1 hstep
      split at h
      · cases h
      · rename_i t1 hrun
        simp only [Option.some.injEq] at h
        subst h
        cases i with
        | zero =>
          simp only [List.getElem?_cons_zero, Option.some.injEq] at hst ho
          subst hst ho
          have hs1 : s1 = .exec_complete := by
            rcases hpp with e | e <;> subst e <;> simp [cq_step] at hstep <;> exact hstep.symm
          subst hs1
          have ht1 := cq_run_complete os t1 hrun
          subst ht1
          refine ⟨rfl, ?_⟩
          rcases hpp with e | e <;> subst e <;> simp
        | succ j =>
          simp only [List.getElem?_cons_succ] at hst ho
          obtain ⟨h1, h2⟩ := ih s1 t1 j st hrun hst hpp ho
          refine ⟨by simpa using h1, ?_⟩
          intro hmem
          rcases List.mem_cons.mp hmem with e | e
          · have hl : s1.late = true := cq_step_late s s1 o (by rw [← e]; rfl) hstep
            have := cq_run_late os s1 t1 hl hrun st (List.getElem?_mem hst)
            rcases hpp with e1 | e1 <;> subst e1 <;>
              simp [cmd_exec_state.late, cmd_exec_state.toNat] at this
          · exact h2 e

/-- C9: in every run of the command execution state machine (from any state, through
any outcomes), when the step taken in the `parse` state or in the `open_pipes` state
meets an error, the next state is `exec_complete` and `exec_execute` is not among
the states of the run. -/
theorem cq_error_never_executes (s : cmd_exec_state) (os : List cmd_outcome)
    (t : List cmd_exec_state) (i : Nat) (st : cmd_exec_state)
    (hrun : cq_run s os = some t) (hst : t[i]? = some st)
    (hpp : st = .exec_parse ∨ st = .exec_open_pipes) (herr : os[i]? = some .error) :
    t[i + 1]? = some .exec_complete ∧ cmd_exec_state.exec_execute ∉ t :=
  cq_run_error os s t i st hrun hst hpp herr

/-- Witness for C9: a line that is fetched and parsed and whose pipe fails to
open. -/
theorem cq_error_never_executes_witness :
    cq_run .exec_null [.ok, .ok, .ok, .error] =
      some [.exec_null, .exec_fetch, .exec_parse, .exec_open_pipes, .exec_complete] ∧
    ([cmd_exec_state.exec_null, .exec_fetch, .exec_parse, .exec_open_pipes,
        .exec_complete][3 + 1]? = some .exec_complete ∧
      cmd_exec_state.exec_execute ∉
        [cmd_exec_state.exec_null, .exec_fetch, .exec_parse, .exec_open_pipes,
          .exec_complete]) :=
  ⟨rfl, cq_error_never_executes .exec_null [.ok, .ok, .ok, .error] _ 3 .exec_open_pipes
    rfl rfl (Or.inr rfl) rfl⟩

/-! ### Invariants of the notifications built by appends -/

theorem append_data_total (L : Layout) (m : Mem) (p : Addr) (n : bgp_notify)
    (d : List Byte) (len : Nat)
    (hp : m.heap p = some n) (hwf : n.wf L) (hcap : L.hdr + n.length ≤ n.size)
    (hd : len ≤ d.length)
    (hfit : L.hdr + (n.length + len) ≤ n.size ∨
            L.hdr + ((n.length + len + 32 + 16 - 1) / 32) * 32 < 2 ^ L.bits) :
    ∃ p1 m1 n1, bgp_notify_append_data L m p d len = some (p1, m1) ∧
      m1.heap p1 = some n1 ∧ n1.wf L ∧ L.hdr + n1.length ≤ n1.size ∧
      n1.length = n.length + len ∧ n1.code = n.code ∧ n1.subcode = n.subcode ∧
      n1.size = (if L.hdr + (n.length + len) ≤ n.size then n.size
                 else bgp_notify_size L (n.length + len)) ∧
      n.size ≤ n1.size ∧
      n1.data = (n.data ++ List.replicate (n1.size - n.size) 0).take n.length ++
                d.take len ++
                (n.data ++ List.replicate (n1.size - n.size) 0).drop (n.length + len) := by
  obtain ⟨p1, m1, _, h1, _⟩ :=
    append_data_ok L m p n d len hp hwf hd (grow_of_fit L n len hfit)
  obtain ⟨n1, h2⟩ := append_data_post L m p n d len p1 m1 hp hwf hcap h1
  exact ⟨p1, m1, n1, h1, h2⟩

theorem append_data_prefix (L : Layout) (m : Mem) (p : Addr) (n : bgp_notify)
    (d : List Byte)
    (hp : m.heap p = some n) (hwf : n.wf L) (hcap : L.hdr + n.length ≤ n.size)
    (hfit : L.hdr + (n.length + d.length) ≤ n.size ∨
            L.hdr + ((n.length + d.length + 32 + 16 - 1) / 32) * 32 < 2 ^ L.bits) :
    ∃ p1 m1 n1, bgp_notify_append_data L m p d d.length = some (p1, m1) ∧
      m1.heap p1 = some n1 ∧ n1.wf L ∧ L.hdr + n1.length ≤ n1.size ∧
      n1.length = n.length + d.length ∧ n1.code = n.code ∧ n1.subcode = n.subcode ∧
      n.size ≤ n1.size ∧
      n1.data.take n1.length = n.data.take n.length ++ d := by
  obtain ⟨p1, m1, n1, h1, h2, h3, h4, h5, h6, h7, _, h9, h10⟩ :=
    append_data_total L m p n d d.length hp hwf hcap (le_refl _) hfit
  refine ⟨p1, m1, n1, h1, h2, h3, h4, h5, h6, h7, h9, ?_⟩
  have hl : n.length ≤ n.data.length := by
    have := hwf.1
    omega
  have hA : (List.take n.length n.data).length = n.length := by
    rw [List.length_take]
    omega
  rw [h10, h5, List.take_append_of_le_length hl, List.take_length]
  rw [List.take_append_of_le_length (by rw [List.length_append, hA])]
  rw [List.take_of_length_le (by rw [List.length_append, hA])]

theorem built_zero (L : Layout) (n : bgp_notify) (h : Built L n) :
    ∀ b ∈ n.data.drop n.length, b = 0 := by
  induction h with
  | new m code subcode expect a m1 n h hn =>
    obtain ⟨_, h2⟩ := new_post L m code subcode expect a m1 n h hn
    subst h2
    intro b hb
    exact List.eq_of_mem_replicate (List.mem_of_mem_drop hb)
  | append m p n d len p1 m1 n1 hb hp h hn ih =>
    have hi := built_inv L n hb
    obtain ⟨hd, _⟩ := append_data_inv L m p n d len p1 m1 hp hi.1 hi.2 h
    obtain ⟨n2, h1, _, _, hlen, _, _, _, hge, hdata⟩ :=
      append_data_post L m p n d len p1 m1 hp hi.1 hi.2 h
    rw [h1] at hn
    cases hn
    have hsz := hi.1.1
    have hl : n.length ≤ n.data.length := by omega
    have htk : (List.take len d).length = len := by
      rw [List.length_take]
      rcases hd with h0 | h0 <;> omega
    intro b hb
    rw [hdata, hlen] at hb
    rw [List.append_assoc, List.take_append_of_le_length hl,
      List.drop_append_eq_append_drop, List.drop_append_eq_append_drop] at hb
    have hA : (List.take n.length n.data).length = n.length := by
      rw [List.length_take]
      omega
    have e1 : List.drop (n.length + len) (List.take n.length n.data) = [] :=
      List.drop_of_length_le (by omega)
    have e2 : List.drop (n.length + len - (List.take n.length n.data).length)
        (List.take len d) = [] :=
      List.drop_of_length_le (by omega)
    rw [e1, e2, List.nil_append, List.nil_append] at hb
    have hb1 := List.mem_of_mem_drop hb
    rw [← List.drop_drop] at hb1
    have hb2 := List.mem_of_mem_drop hb1
    rw [List.drop_append_of_le_length hl] at hb2
    rcases List.mem_append.mp hb2 with h0 | h0
    · exact ih b h0
    · exact List.eq_of_mem_replicate h0

theorem dup_total (L : Layout) (m : Mem) (a : Addr) (n : bgp_notify)
    (hp : m.heap a = some n) (hwf : n.wf L)
    (h1 : L.hdr + n.length ≤ bgp_notify_size L n.length)
    (h2 : bgp_notify_size L n.length ≤ n.size) :
    ∃ d m1 nd, bgp_notify_dup L m (some a) = some (some d, m1) ∧ m1.heap d = some nd ∧
      nd.wf L ∧ L.hdr + nd.length ≤ nd.size ∧
      nd.code = n.code ∧ nd.subcode = n.subcode ∧ nd.length = n.length ∧
      nd.size = bgp_notify_size L n.length ∧
      nd.data.take n.length = n.data.take n.length := by
  have hd := dup_ok L m a n hp hwf (by omega) h2
  have hsz := hwf.1
  refine ⟨m.next, _, { n with size := bgp_notify_size L n.length,
                              data := n.data.take (bgp_notify_size L n.length - L.hdr) },
    hd, ?_, ⟨?_, bgp_notify_size_lt L n.length⟩, h1, rfl, rfl, rfl, rfl, ?_⟩
  · simp only [Function.update_same]
  · simp only [List.length_take]
    omega
  · simp only [List.take_take]
    congr 1
    omega

theorem blk_big_length : blk_big.data.length = 65527 :=
  List.length_replicate _ _

theorem blk_big_wf : blk_big.wf L16 := by
  refine ⟨?_, by decide⟩
  rw [blk_big_length]
  decide

theorem big_a_length : big_a.length = 65488 := List.length_replicate _ _

theorem ten_b_length : ten_b.length = 10 := List.length_replicate _ _

/-- C11, counterexample: under a 16-bit `bgp_size_t`, the notification of length 65520
in a block of 65535 bytes satisfies `sizeof(struct bgp_notify) + length <= size`, and
`bgp_notify_dup` returns a duplicate of length 65520 and size 8 (the sum computed by
`bgp_notify_size(65520)` wraps around), which does not; and an append of 65535 bytes
to a new notification, a length that fits in `bgp_size_t`, returns no notification
at all (`memcpy` runs out of the block). -/
theorem capacity_invariant_lost :
    (mem_big.heap 0 = some blk_big ∧ blk_big.wf L16 ∧
      L16.hdr + blk_big.length ≤ blk_big.size ∧
      ∃ d m1 nd, bgp_notify_dup L16 mem_big (some 0) = some (some d, m1) ∧
        m1.heap d = some nd ∧ nd.length = 65520 ∧ nd.size = 8 ∧
        ¬ (L16.hdr + nd.length ≤ nd.size)) ∧
    (mem1.heap 0 = some blk0 ∧ blk0.wf L16 ∧ L16.hdr + blk0.length ≤ blk0.size ∧
      blk0.length + 65535 < 2 ^ L16.bits ∧
      bgp_notify_append_data L16 mem1 0 (List.replicate 65535 7) 65535 = none) := by
  refine ⟨⟨rfl, blk_big_wf, by decide, ?_⟩, rfl, by decide, by decide, by decide,
    append_data_fault L16 mem1 0 blk0 _ 65535 rfl (by decide) (by decide) (by decide)
      (by decide) (by decide)⟩
  have hd := dup_ok L16 mem_big 0 blk_big rfl blk_big_wf (by decide) (by decide)
  refine ⟨_, _, { blk_big with size := bgp_notify_size L16 blk_big.length,
                               data := blk_big.data.take
                                 (bgp_notify_size L16 blk_big.length - L16.hdr) },
    hd, ?_, rfl, by decide, by decide⟩
  simp only [Function.update_same]

/-- C11, amended: `sizeof(struct bgp_notify) + length <= size` holds for the result of
`bgp_notify_new` (for a header shorter than 32 bytes and a `bgp_size_t` of at least
5 bits); it is preserved by every `bgp_notify_append_data` call that returns, and
the call does return when the data fits in the block or the sum computed by
`bgp_notify_size(n.length + len)` fits in `bgp_size_t`; and it holds for the result
of `bgp_notify_dup` on a notification whose block holds the
`bgp_notify_size(n.length)` bytes copied, that size covering
`sizeof(struct bgp_notify) + n.length`. -/
theorem capacity_invariant (L : Layout) :
    (∀ m code subcode expect, L.hdr < 32 → 5 ≤ L.bits →
      ∃ a m1 n, bgp_notify_new L m code subcode expect = some (a, m1) ∧
        m1.heap a = some n ∧ L.hdr + n.length ≤ n.size) ∧
    (∀ m p n d len p1 m1, m.heap p = some n → n.wf L → L.hdr + n.length ≤ n.size →
      bgp_notify_append_data L m p d len = some (p1, m1) →
      ∃ n1, m1.heap p1 = some n1 ∧ L.hdr + n1.length ≤ n1.size) ∧
    (∀ m p n d len, m.heap p = some n → n.wf L → L.hdr + n.length ≤ n.size →
      len ≤ d.length →
      (L.hdr + (n.length + len) ≤ n.size ∨
        L.hdr + ((n.length + len + 32 + 16 - 1) / 32) * 32 < 2 ^ L.bits) →
      ∃ p1 m1 n1, bgp_notify_append_data L m p d len = some (p1, m1) ∧
        m1.heap p1 = some n1 ∧ L.hdr + n1.length ≤ n1.size) ∧
    (∀ m a n, m.heap a = some n → n.wf L →
      L.hdr + n.length ≤ bgp_notify_size L n.length →
      bgp_notify_size L n.length ≤ n.size →
      ∃ d m1 nd, bgp_notify_dup L m (some a) = some (some d, m1) ∧
        m1.heap d = some nd ∧ L.hdr + nd.length ≤ nd.size) := by
  refine ⟨?_, ?_, ?_, ?_⟩
  · intro m code subcode expect hh hb
    have h := hdr_le_bgp_notify_size L expect hh hb
    refine ⟨m.next, _, ⟨code, subcode, 0, bgp_notify_size L expect,
      List.replicate (bgp_notify_size L expect - L.hdr) 0⟩,
      new_ok L m code subcode expect h, ?_, ?_⟩
    · simp only [Function.update_same]
    · simp only
      omega
  · intro m p n d len p1 m1 hp hwf hcap h
    obtain ⟨n1, h1, _, h3, _⟩ := append_data_post L m p n d len p1 m1 hp hwf hcap h
    exact ⟨n1, h1, h3⟩
  · intro m p n d len hp hwf hcap hd hfit
    obtain ⟨p1, m1, n1, h1, h2, _, h4, _⟩ :=
      append_data_total L m p n d len hp hwf hcap hd hfit
    exact ⟨p1, m1, n1, h1, h2, h4⟩
  · intro m a n hp hwf h1 h2
    obtain ⟨d, m1, nd, h3, h4, _, h6, _⟩ := dup_total L m a n hp hwf h1 h2
    exact ⟨d, m1, nd, h3, h4, h6⟩

/-- Witness for C11: the invariant after `bgp_notify_new(6, 2, 100)`, after 20 more
bytes are appended to the notification of `mem2` (which grows its block), and in
the duplicate of the new notification of `mem1`. -/
theorem capacity_invariant_witness :
    (∃ a m1 n, bgp_notify_new L16 Mem.empty 6 2 100 = some (a, m1) ∧
      m1.heap a = some n ∧ L16.hdr + n.length ≤ n.size) ∧
    (∃ p1 m1 n1, bgp_notify_append_data L16 mem2 0 bytes20 20 = some (p1, m1) ∧
      m1.heap p1 = some n1 ∧ L16.hdr + n1.length ≤ n1.size) ∧
    (∃ d m1 nd, bgp_notify_dup L16 mem1 (some 0) = some (some d, m1) ∧
      m1.heap d = some nd ∧ L16.hdr + nd.length ≤ nd.size) :=
  ⟨(capacity_invariant L16).1 Mem.empty 6 2 100 (by decide) (by decide),
    (capacity_invariant L16).2.2.1 mem2 0 blk20 bytes20 20 rfl (by decide) (by decide)
      (by decide) (Or.inr (by decide)),
    (capacity_invariant L16).2.2.2 mem1 0 blk0 rfl (by decide) (by decide) (by decide)⟩

/-- C12, the code at the failing input: the notification obtained from
`bgp_notify_new(6, 2, 0)` by an append of 20 bytes has size `8 + 32 = 40`, and
`bgp_notify_dup` copies `bgp_notify_size(20) = 8 + 64 = 72` bytes out of it. -/
theorem bgp_notify_dup_copy_exceeds :
    Built L16 blk20 ∧ bgp_notify_size L16 blk20.length = 72 ∧ blk20.size = 40 ∧
    ¬ (bgp_notify_size L16 blk20.length ≤ blk20.size) :=
  ⟨built_blk20, by decide, rfl, by decide⟩

/-- C13: the slack is zero-filled.  In every notification obtained from
`bgp_notify_new` by a sequence of `bgp_notify_append_data` calls, every payload byte
at an offset `i` with `length <= i` and `i < size - sizeof(struct bgp_notify)` is
zero. -/
theorem slack_zero_filled (L : Layout) (n : bgp_notify) (h : Built L n) (i : Nat)
    (hi : n.length ≤ i) (hc : i < n.size - L.hdr) : n.data[i]? = some 0 := by
  have hz := built_zero L n h
  have hw := (built_inv L n h).1.1
  have hlt : i < n.data.length := by omega
  have hlt2 : i - n.length < (n.data.drop n.length).length := by
    rw [List.length_drop]
    omega
  have hmem := List.getElem_mem hlt2
  have h0 := hz _ hmem
  rw [List.getElem_drop] at h0
  rw [List.getElem?_eq_getElem hlt]
  have e : n.length + (i - n.length) = i := by omega
  simp only [e] at h0
  rw [h0]

/-- Witness for C13: byte 25 of the notification that holds 20 bytes in a capacity
of 32. -/
theorem slack_zero_filled_witness : blk20.data[25]? = some 0 :=
  slack_zero_filled L16 blk20 built_blk20 25 (by decide) (by decide)

/-- C14, counterexample: under a 16-bit `bgp_size_t`, appending 65488 bytes and then
10 bytes to a new notification returns a notification of length 65498 (the first
append grows the block to `8 + 65504` bytes, the second fits), while appending the
65498 bytes in one call returns none: `bgp_notify_size(65498)` wraps around to 8,
below the size of the block.  The total length fits in `bgp_size_t`. -/
theorem bgp_notify_append_data_compose_overflow :
    mem1.heap 0 = some blk0 ∧ blk0.wf L16 ∧ L16.hdr + blk0.length ≤ blk0.size ∧
    big_a.length = 65488 ∧ ten_b.length = 10 ∧
    blk0.length + (65488 + 10) < 2 ^ L16.bits ∧
    (∃ p1 m1 p2 m2 n2,
      bgp_notify_append_data L16 mem1 0 big_a 65488 = some (p1, m1) ∧
      bgp_notify_append_data L16 m1 p1 ten_b 10 = some (p2, m2) ∧
      m2.heap p2 = some n2 ∧ n2.length = 65498) ∧
    bgp_notify_append_data L16 mem1 0 (big_a ++ ten_b) (65488 + 10) = none := by
  refine ⟨rfl, by decide, by decide, big_a_length, ten_b_length, by decide, ?_, ?_⟩
  · obtain ⟨p1, m1, n1, h1, h2, h3, h4, h5, _, _, h8, _⟩ :=
      append_data_total L16 mem1 0 blk0 big_a 65488 rfl (by decide) (by decide)
        (by rw [big_a_length]) (Or.inr (by decide))
    have hs : n1.size = 65512 := by
      rw [h8]
      decide
    have hl : n1.length = 65488 := by
      rw [h5]
      decide
    obtain ⟨p2, m2, n2, k1, k2, _, _, k5, _⟩ :=
      append_data_total L16 m1 p1 n1 ten_b 10 h2 h3 h4 (by rw [ten_b_length])
        (Or.inl (by
          rw [hl, hs]
          decide))
    exact ⟨p1, m1, p2, m2, n2, h1, k1, k2, by rw [k5, hl]⟩
  · exact append_data_fault L16 mem1 0 blk0 _ (65488 + 10) rfl (by decide) (by decide)
      (by decide) (by decide) (by decide)

/-- C14, amended: for every notification `n` with
`sizeof(struct bgp_notify) + n.length <= n.size` and all byte strings `a` and `b` such
that either all the bytes fit in the block of `n` or the sum computed by
`bgp_notify_size` for the total length fits in `bgp_size_t`, appending `a` and then
`b` and appending `a ++ b` in one call both return a notification, with the same
code, subcode, length and payload bytes below length. -/
theorem bgp_notify_append_data_compose (L : Layout) (m : Mem) (p : Addr) (n : bgp_notify)
    (a b : List Byte)
    (hp : m.heap p = some n) (hwf : n.wf L) (hcap : L.hdr + n.length ≤ n.size)
    (hfit : L.hdr + (n.length + (a.length + b.length)) ≤ n.size ∨
            L.hdr + ((n.length + (a.length + b.length) + 32 + 16 - 1) / 32) * 32
              < 2 ^ L.bits) :
    ∃ p1 m1 p2 m2 n2 q mq nq,
      bgp_notify_append_data L m p a a.length = some (p1, m1) ∧
      bgp_notify_append_data L m1 p1 b b.length = some (p2, m2) ∧
      m2.heap p2 = some n2 ∧
      bgp_notify_append_data L m p (a ++ b) (a.length + b.length) = some (q, mq) ∧
      mq.heap q = some nq ∧
      n2.code = nq.code ∧ n2.subcode = nq.subcode ∧ n2.length = nq.length ∧
      n2.data.take n2.length = nq.data.take nq.length := by
  have hfa : L.hdr + (n.length + a.length) ≤ n.size ∨
      L.hdr + ((n.length + a.length + 32 + 16 - 1) / 32) * 32 < 2 ^ L.bits := by
    rcases hfit with h | h
    · exact Or.inl (by omega)
    · exact Or.inr (by omega)
  obtain ⟨p1, m1, n1, h1, h2, h3, h4, h5, h6, h7, h8, h9⟩ :=
    append_data_prefix L m p n a hp hwf hcap hfa
  have hfb : L.hdr + (n1.length + b.length) ≤ n1.size ∨
      L.hdr + ((n1.length + b.length + 32 + 16 - 1) / 32) * 32 < 2 ^ L.bits := by
    rcases hfit with h | h
    · exact Or.inl (by omega)
    · exact Or.inr (by
        rw [h5]
        omega)
  obtain ⟨p2, m2, n2, k1, k2, _, _, k5, k6, k7, _, k9⟩ :=
    append_data_prefix L m1 p1 n1 b h2 h3 h4 hfb
  have hfab : L.hdr + (n.length + (a ++ b).length) ≤ n.size ∨
      L.hdr + ((n.length + (a ++ b).length + 32 + 16 - 1) / 32) * 32 < 2 ^ L.bits := by
    rw [List.length_append]
    exact hfit
  obtain ⟨q, mq, nq, j1, j2, _, _, j5, j6, j7, _, j9⟩ :=
    append_data_prefix L m p n (a ++ b) hp hwf hcap hfab
  rw [List.length_append] at j1 j5
  refine ⟨p1, m1, p2, m2, n2, q, mq, nq, h1, k1, k2, j1, j2, ?_, ?_, ?_, ?_⟩
  · rw [k6, h6, j6]
  · rw [k7, h7, j7]
  · rw [k5, h5, j5]
    omega
  · rw [k9, j9, h9, List.append_assoc]

/-- Witness for C14: 20 bytes and then 10 bytes appended to a new notification. -/
theorem bgp_notify_append_data_compose_witness :
    ∃ p1 m1 p2 m2 n2 q mq nq,
      bgp_notify_append_data L16 mem1 0 bytes20 bytes20.length = some (p1, m1) ∧
      bgp_notify_append_data L16 m1 p1 ten_b ten_b.length = some (p2, m2) ∧
      m2.heap p2 = some n2 ∧
      bgp_notify_append_data L16 mem1 0 (bytes20 ++ ten_b)
        (bytes20.length + ten_b.length) = some (q, mq) ∧
      mq.heap q = some nq ∧
      n2.code = nq.code ∧ n2.subcode = nq.subcode ∧ n2.length = nq.length ∧
      n2.data.take n2.length = nq.data.take nq.length :=
  bgp_notify_append_data_compose L16 mem1 0 blk0 bytes20 ten_b rfl (by decide) (by decide)
    (Or.inl (by decide))

/-- C15, counterexample: under a 16-bit `bgp_size_t`, for a new notification (size
40) and `len = 65535` the data does not fit, and `bgp_notify_size(65535)` is 40,
which is not strictly greater than the size; the call returns no notification. -/
theorem bgp_notify_append_data_size_wraps :
    mem1.heap 0 = some blk0 ∧ blk0.wf L16 ∧ L16.hdr + blk0.length ≤ blk0.size ∧
    ¬ (L16.hdr + blk0.length + 65535 ≤ blk0.size) ∧
    bgp_notify_size L16 (blk0.length + 65535) = 40 ∧
    ¬ (blk0.size < bgp_notify_size L16 (blk0.length + 65535)) ∧
    bgp_notify_append_data L16 mem1 0 (List.replicate 65535 7) 65535 = none :=
  ⟨rfl, by decide, by decide, by decide, by decide, by decide,
    append_data_fault L16 mem1 0 blk0 _ 65535 rfl (by decide) (by decide) (by decide)
      (by decide) (by decide)⟩

/-- C15, amended: for every notification `n` with
`sizeof(struct bgp_notify) + n.length <= n.size` and every `len` such that either the
data fits in the block or the sum computed by `bgp_notify_size(n.length + len)`
fits in `bgp_size_t`, `bgp_notify_append_data` returns a notification whose size is
`n.size` when `sizeof(struct bgp_notify) + n.length + len <= n.size`, and otherwise
is `bgp_notify_size(n.length + len)`, which is strictly greater than `n.size`: the
size never goes down. -/
theorem bgp_notify_append_data_size (L : Layout) (m : Mem) (p : Addr) (n : bgp_notify)
    (d : List Byte) (len : Nat)
    (hp : m.heap p = some n) (hwf : n.wf L) (hcap : L.hdr + n.length ≤ n.size)
    (hd : len ≤ d.length)
    (hfit : L.hdr + n.length + len ≤ n.size ∨
            L.hdr + ((n.length + len + 32 + 16 - 1) / 32) * 32 < 2 ^ L.bits) :
    ∃ p1 m1 n1, bgp_notify_append_data L m p d len = some (p1, m1) ∧
      m1.heap p1 = some n1 ∧
      (L.hdr + n.length + len ≤ n.size → n1.size = n.size) ∧
      (¬ (L.hdr + n.length + len ≤ n.size) →
        n1.size = bgp_notify_size L (n.length + len) ∧ n.size < n1.size) ∧
      n.size ≤ n1.size := by
  obtain ⟨p1, m1, n1, h1, h2, _, h4, h5, _, _, h8, h9, _⟩ :=
    append_data_total L m p n d len hp hwf hcap hd (by omega)
  refine ⟨p1, m1, n1, h1, h2, ?_, ?_, h9⟩
  · intro hg
    rw [h8, if_pos (by omega)]
  · intro hg
    have hg1 : ¬ (L.hdr + (n.length + len) ≤ n.size) := by omega
    rw [if_neg hg1] at h8
    exact ⟨h8, by omega⟩

/-- Witness for C15: 20 more bytes appended to the notification that holds 20 bytes
in a capacity of 32. -/
theorem bgp_notify_append_data_size_witness :
    ∃ p1 m1 n1, bgp_notify_append_data L16 mem2 0 bytes20 20 = some (p1, m1) ∧
      m1.heap p1 = some n1 ∧
      (L16.hdr + blk20.length + 20 ≤ blk20.size → n1.size = blk20.size) ∧
      (¬ (L16.hdr + blk20.length + 20 ≤ blk20.size) →
        n1.size = bgp_notify_size L16 (blk20.length + 20) ∧ blk20.size < n1.size) ∧
      blk20.size ≤ n1.size :=
  bgp_notify_append_data_size L16 mem2 0 blk20 bytes20 20 rfl (by decide) (by decide)
    (by decide) (Or.inr (by decide))

/-! ### Unsetting a pointer variable -/

theorem unset_slot_ok (m : Mem) (s : Nat)
    (hlive : ∀ a, m.slot s = some a → (m.heap a).isSome = true) :
    ∃ m1, bgp_notify_unset m s = some m1 ∧ m1.slot s = none ∧
      (∀ a, m.slot s = some a → m1.heap a = none ∧ m1.freed = m.freed ++ [a]) ∧
      (m.slot s = none → m1 = m) ∧
      (∀ t, t ≠ s → m1.slot t = m.slot t) ∧
      (∀ a, m.slot s ≠ some a → m1.heap a = m.heap a) ∧
      bgp_notify_unset m1 s = some m1 := by
  cases hs : m.slot s with
  | none =>
    refine ⟨m, ?_, hs, fun a h => (by cases h), fun _ => rfl, fun _ _ => rfl,
      fun _ _ => rfl, ?_⟩
    · simp only [bgp_notify_unset, hs]
    · simp only [bgp_notify_unset, hs]
  | some b =>
    have hb := hlive b hs
    refine ⟨{ m with heap := Function.update m.heap b none, freed := m.freed ++ [b],
                     slot := Function.update m.slot s none }, ?_, ?_, ?_, fun h => (by cases h),
      ?_, ?_, ?_⟩
    · simp only [bgp_notify_unset, hs, XFREE, hb, if_true]
    · simp
    · intro a h
      cases h
      exact ⟨by simp, rfl⟩
    · intro t ht
      simp [Function.update_noteq ht]
    · intro a h
      have hab : a ≠ b := fun e => h (by rw [e])
      simp [Function.update_noteq hab]
    · simp [bgp_notify_unset]

/-- C17: for every slot (holding `NULL` or a live notification), after
`bgp_notify_unset` the slot is `NULL` and the notification it held has been
released (one entry more in the log of releases, the other blocks and slots as
they were); on a slot that is `NULL` the memory is left as it is; and a second
`bgp_notify_unset` on the result changes nothing, so that it is idempotent. -/
theorem bgp_notify_unset_spec (m : Mem) (s : Nat)
    (hlive : ∀ a, m.slot s = some a → (m.heap a).isSome = true) :
    ∃ m1, bgp_notify_unset m s = some m1 ∧ m1.slot s = none ∧
      (∀ a, m.slot s = some a → m1.heap a = none ∧ m1.freed = m.freed ++ [a]) ∧
      (m.slot s = none → m1 = m) ∧
      (∀ t, t ≠ s → m1.slot t = m.slot t) ∧
      (∀ a, m.slot s ≠ some a → m1.heap a = m.heap a) ∧
      bgp_notify_unset m1 s = some m1 :=
  unset_slot_ok m s hlive

/-- Witness for C17: slot 0, which holds a notification, is unset. -/
theorem bgp_notify_unset_spec_witness :
    ∃ m1, bgp_notify_unset mem1s 0 = some m1 ∧ m1.slot 0 = none ∧
      (∀ a, mem1s.slot 0 = some a → m1.heap a = none ∧ m1.freed = mem1s.freed ++ [a]) ∧
      (mem1s.slot 0 = none → m1 = mem1s) ∧
      (∀ t, t ≠ 0 → m1.slot t = mem1s.slot t) ∧
      (∀ a, mem1s.slot 0 ≠ some a → m1.heap a = mem1s.heap a) ∧
      bgp_notify_unset m1 0 = some m1 :=
  bgp_notify_unset_spec mem1s 0
    (fun a h => by
      have e : a = 0 := (Option.some.inj h).symm
      rw [e]
      rfl)

/-! ### Order of the states -/

theorem spec_edge_lt (s t : cmd_exec_state) (h : spec_edge s t = true) :
    s.toNat < t.toNat := by
  cases s <;> cases t <;> simp [spec_edge] at h <;> decide

theorem spec_path_mono (path : List cmd_exec_state) :
    ∀ (s : cmd_exec_state), spec_path (s :: path) = true →
      ∀ t ∈ path, s.toNat < t.toNat := by
  induction path with
  | nil =>
    intro s _ t ht
    cases ht
  | cons u rest ih =>
    intro s h t ht
    simp only [spec_path, Bool.and_eq_true] at h
    have h1 := spec_edge_lt s u h.1
    rcases List.mem_cons.mp ht with e | e
    · rw [e]
      exact h1
    · exact Nat.lt_trans h1 (ih u h.2 t e)

/-- C16: the numeric order of `enum cmd_exec_state` agrees with the forward order of
the state machine.  `exec_null` is 0, the target of every listed edge has a
strictly greater value than its source, and so along every path `s :: path` that
follows the edges each later state has a greater value than `s`: the state never
regresses. -/
theorem cmd_exec_state_order (s : cmd_exec_state) (path : List cmd_exec_state)
    (h : spec_path (s :: path) = true) :
    cmd_exec_state.exec_null.toNat = 0 ∧
    (∀ a b, spec_edge a b = true → a.toNat < b.toNat) ∧
    (∀ t ∈ path, s.toNat < t.toNat) :=
  ⟨rfl, spec_edge_lt, spec_path_mono path s h⟩

/-- Witness for C16: the path of a line whose pipe fails to open. -/
theorem cmd_exec_state_order_witness :
    spec_path [.exec_null, .exec_fetch, .exec_parse, .exec_open_pipes, .exec_complete] = true ∧
    (cmd_exec_state.exec_null.toNat = 0 ∧
      (∀ a b, spec_edge a b = true → a.toNat < b.toNat) ∧
      (∀ t ∈ [cmd_exec_state.exec_fetch, .exec_parse, .exec_open_pipes, .exec_complete],
        cmd_exec_state.exec_null.toNat < t.toNat)) :=
  ⟨rfl, cmd_exec_state_order .exec_null [.exec_fetch, .exec_parse, .exec_open_pipes,
    .exec_complete] rfl⟩

end Quagga
